import Mathlib

/-!
# mshell: relay, daemon and client

A shallow embedding of the three programs of the repository:

* `cmd/mshell-server/server.go` (namespace `Server`): the accept loop of `main`, and the
  goroutines `peerListener` and `targetListener`, as a labelled transition system over the
  shared command queue `targetChan` and the per-command reply channels `Respond`;
* `cmd/mshelld/mshelld.go` (namespace `Mshelld`): one iteration of the loop of `session`;
* `cmd/mshell/mshell.go` (namespace `Mshell`): the reply handling of the loop of `main`.

Byte slices are lists of naturals (each below 256); Go channels are modelled by their
language semantics (bounded FIFO buffer, rendezvous on an unbuffered channel, panic on a second
close or on a send after close).
-/

/-! ## Definitions -/

/-- A Go byte slice. -/
abbrev Bytes := List Nat

/-- The bytes of an ASCII string literal. -/
def str (s : String) : Bytes := s.toList.map Char.toNat

/-- Modelled from the spec: the message types produced by the external secure channel
(`schannel.ShutdownMessage`, `schannel.KEXMessage`, `schannel.NormalMessage`); the package
`schannel` is not part of the repository. -/
inductive MessageType
  | ShutdownMessage
  | KEXMessage
  | NormalMessage
deriving DecidableEq, Repr

/-- Modelled from the spec: `schannel.Message`, a typed message with its `Contents`. -/
structure Message where
  type : MessageType
  Contents : Bytes
deriving DecidableEq, Repr

namespace Server

/-- The struct `command` of server.go; the channel `Respond` is the index of the
reply channel in the heap of channels made so far. -/
structure command where
  CmdLine : Bytes
  Respond : Nat
deriving DecidableEq, Repr

/-- Which goroutine closed a reply channel. -/
inductive Closer
  | target
  | peer
deriving DecidableEq, Repr

/-- An operation completed on a reply channel. -/
inductive ChanOp
  | send (v : Bytes)
  | close (who : Closer)
deriving DecidableEq, Repr

/-- Is the operation a close? -/
def ChanOp.isClose : ChanOp → Bool
  | .send _ => false
  | .close _ => true

/-- An unbuffered reply channel `make(chan []byte)`, as the history of the operations
completed on it, oldest first. -/
structure Chan where
  ops : List ChanOp
deriving DecidableEq, Repr

/-- A channel is closed once a close is in its history. -/
def Chan.closed (c : Chan) : Bool := c.ops.any ChanOp.isClose

/-- Program points of `peerListener` (the line of server.go the goroutine is at). -/
inductive PeerPC
  | listen                                  -- line 34: schannel.Listen
  | receive                                 -- line 49: sch.Receive
  | enqueue (c : command)                   -- line 68: targetChan <- command
  | await (c : command)                     -- line 70: <-command.Respond
  | reply (c : command) (out : Bytes)       -- line 74: sch.Send(out)
  | closing (c : command)                   -- line 78: close(command.Respond)
  | done                                    -- returned
deriving DecidableEq, Repr

/-- Program points of `targetListener`. -/
inductive TargetPC
  | listen                                  -- line 90: schannel.Listen
  | dequeue                                 -- line 105: <-targetChan
  | send (c : command)                      -- line 112: sch.Send(command.CmdLine)
  | receive (c : command)                   -- line 119: sch.Receive
  | respond (c : command) (v : Bytes)       -- line 135: command.Respond <- m.Contents
  | done                                    -- returned
deriving DecidableEq, Repr

/-- A call of `sch.Send`: which worker called it, with which bytes. -/
inductive Sent
  | toPeer (i : Nat) (data : Bytes)
  | toTarget (j : Nat) (data : Bytes)
deriving DecidableEq, Repr

/-- The state of the relay process. -/
structure Relay where
  /-- The buffered channel `targetChan`, oldest command first. -/
  targetChan : List command
  /-- The reply channels made so far. -/
  chans : List Chan
  /-- The `peerListener` goroutines, in spawn order. -/
  peers : List PeerPC
  /-- The `targetListener` goroutines, in spawn order. -/
  targets : List TargetPC
  /-- The calls of `sch.Send` so far, oldest first. -/
  wire : List Sent
  /-- A goroutine has panicked (the process is dead). -/
  panicked : Bool
deriving DecidableEq, Repr

/-- The capacity of `targetChan`: `make(chan command, 4)` in `main`. -/
def targetChanCap : Nat := 4

/-- What the accept loop does with a connection. -/
inductive Spawn
  | targetListener
  | peerListener
  | nothing
deriving DecidableEq, Repr

/-- The `switch from[0]` of `main`. -/
def dispatch (b : Nat) : Spawn :=
  if b = 't'.toNat then .targetListener
  else if b = 'c'.toNat then .peerListener
  else .nothing

/-- One iteration of the accept loop of `main`, after `ln.Accept` succeeded; `lead` is the
byte read from the connection, `none` when `conn.Read` failed. -/
def main (s : Relay) (lead : Option Nat) : Relay :=
  match lead with
  | none => s
  | some b =>
    match dispatch b with
    | .targetListener => { s with targets := s.targets ++ [TargetPC.listen] }
    | .peerListener => { s with peers := s.peers ++ [PeerPC.listen] }
    | .nothing => s

/-- The state at the first `ln.Accept`. -/
def init : Relay :=
  { targetChan := [], chans := [], peers := [], targets := [], wire := [], panicked := false }

/-- Is the reply channel `ch` closed? -/
def Relay.isClosed (s : Relay) (ch : Nat) : Bool :=
  match s.chans[ch]? with
  | some c => c.closed
  | none => false

/-- The builtin `close(ch)`: panics on a closed (or nil) channel. -/
def Relay.close (s : Relay) (who : Closer) (ch : Nat) : Relay :=
  match s.chans[ch]? with
  | some c =>
    if c.closed then { s with panicked := true }
    else { s with chans := s.chans.set ch (Chan.mk (c.ops ++ [ChanOp.close who])) }
  | none => { s with panicked := true }

/-- A completed send of `v` on the open channel `ch`. -/
def Relay.sendOn (s : Relay) (ch : Nat) (v : Bytes) : Relay :=
  match s.chans[ch]? with
  | some c => { s with chans := s.chans.set ch (Chan.mk (c.ops ++ [ChanOp.send v])) }
  | none => s

/-- Move peer worker `i` to the program point `pc`. -/
def Relay.setPeer (s : Relay) (i : Nat) (pc : PeerPC) : Relay :=
  { s with peers := s.peers.set i pc }

/-- Move target worker `j` to the program point `pc`. -/
def Relay.setTarget (s : Relay) (j : Nat) (pc : TargetPC) : Relay :=
  { s with targets := s.targets.set j pc }

/-- What a peer worker does next, with the answer of its environment. -/
inductive PeerAct
  | listen (ok : Bool)                 -- schannel.Listen returned ok
  | receive (m : Option Message)       -- sch.Receive returned m (none: not ok)
  | enqueue                            -- the send on targetChan completes
  | awaitClosed                        -- the receive on Respond sees the channel closed
  | reply (ok : Bool)                  -- sch.Send(out) returned ok
  | close                              -- close(command.Respond)
deriving DecidableEq, Repr

/-- What a target worker does next, with the answer of its environment. -/
inductive TargetAct
  | listen (ok : Bool)                 -- schannel.Listen returned ok
  | dequeue                            -- the receive on targetChan completes
  | send (ok : Bool)                   -- sch.Send(command.CmdLine) returned ok
  | receive (m : Option Message)       -- sch.Receive returned m (none: not ok)
  | respondClosed                      -- the send on Respond finds the channel closed
deriving DecidableEq, Repr

/-- One step of the goroutine `peerListener` number `i`, at program point `pc`. -/
def peerListener (s : Relay) (i : Nat) : PeerPC → PeerAct → Option Relay
  | .listen, .listen ok => some (s.setPeer i (if ok then .receive else .done))
  | .receive, .receive none => some (s.setPeer i .done)
  | .receive, .receive (some m) =>
    match m.type with
    | .ShutdownMessage => some (s.setPeer i .done)
    | .KEXMessage => some (s.setPeer i .receive)
    | .NormalMessage =>
      some ({ s with chans := s.chans ++ [Chan.mk []] }.setPeer i
        (.enqueue { CmdLine := m.Contents, Respond := s.chans.length }))
  | .enqueue c, .enqueue =>
    if s.targetChan.length < targetChanCap then
      some ({ s with targetChan := s.targetChan ++ [c] }.setPeer i (.await c))
    else none
  | .await c, .awaitClosed =>
    if s.isClosed c.Respond then some (s.setPeer i .done) else none
  | .reply c out, .reply ok =>
    some ({ s with wire := s.wire ++ [Sent.toPeer i out] }.setPeer i
      (if ok then .closing c else .done))
  | .closing c, .close => some ((s.close Closer.peer c.Respond).setPeer i .receive)
  | _, _ => none

/-- One step of the goroutine `targetListener` number `j`, at program point `pc`. -/
def targetListener (s : Relay) (j : Nat) : TargetPC → TargetAct → Option Relay
  | .listen, .listen ok => some (s.setTarget j (if ok then .dequeue else .done))
  | .dequeue, .dequeue =>
    match s.targetChan with
    | [] => none
    | c :: rest => some ({ s with targetChan := rest }.setTarget j (.send c))
  | .send c, .send ok =>
    let s1 := { s with wire := s.wire ++ [Sent.toTarget j c.CmdLine] }
    if ok then some (s1.setTarget j (.receive c))
    else some ((s1.close Closer.target c.Respond).setTarget j .done)
  | .receive c, .receive none => some ((s.close Closer.target c.Respond).setTarget j .done)
  | .receive c, .receive (some m) =>
    match m.type with
    | .ShutdownMessage => some ((s.close Closer.target c.Respond).setTarget j .done)
    | .KEXMessage => some (s.setTarget j (.receive c))
    | .NormalMessage => some (s.setTarget j (.respond c m.Contents))
  | .respond c _, .respondClosed =>
    if s.isClosed c.Respond then some { s with panicked := true } else none
  | _, _ => none

/-- The labels of the transitions of the relay. -/
inductive Event
  | accept (lead : Option Nat)
  | peer (i : Nat) (a : PeerAct)
  | target (j : Nat) (a : TargetAct)
  | handoff (j i : Nat)     -- the send of target worker j meets the receive of peer worker i
deriving DecidableEq, Repr

/-- One transition of the relay; `none` when the event is not enabled in `s`. -/
def step (s : Relay) (e : Event) : Option Relay :=
  if s.panicked then none
  else
    match e with
    | .accept lead => some (main s lead)
    | .peer i a =>
      match s.peers[i]? with
      | some pc => peerListener s i pc a
      | none => none
    | .target j a =>
      match s.targets[j]? with
      | some pc => targetListener s j pc a
      | none => none
    | .handoff j i =>
      match s.targets[j]?, s.peers[i]? with
      | some (.respond c v), some (.await c') =>
        if c.Respond = c'.Respond ∧ s.isClosed c.Respond = false then
          some (((s.sendOn c.Respond v).setTarget j .dequeue).setPeer i (.reply c' v))
        else none
      | _, _ => none

/-- Run a sequence of events. -/
def run (s : Relay) : List Event → Option Relay
  | [] => some s
  | e :: es => (step s e).bind fun s1 => run s1 es

/-- The states the relay can be in. -/
def Reachable (s : Relay) : Prop := ∃ es, run init es = some s

/-- 1 when the reply channel of the command is `ch`. -/
def command.on (ch : Nat) (c : command) : Nat := if c.Respond = ch then 1 else 0

/-- The peer worker is about to enqueue a command on `ch`. -/
def PeerPC.enq (ch : Nat) : PeerPC → Nat
  | .enqueue c => c.on ch
  | _ => 0

/-- The peer worker waits for the reply on `ch`. -/
def PeerPC.awt (ch : Nat) : PeerPC → Nat
  | .await c => c.on ch
  | _ => 0

/-- The peer worker has received the reply on `ch` and has not closed `ch` yet. -/
def PeerPC.rep (ch : Nat) : PeerPC → Nat
  | .reply c _ => c.on ch
  | .closing c => c.on ch
  | _ => 0

/-- The peer worker is about to send a reply taken from `ch` that differs from `v`. -/
def PeerPC.bad (ch : Nat) (v : Bytes) : PeerPC → Nat
  | .reply c out => if out = v then 0 else c.on ch
  | _ => 0

/-- The target worker holds a command on `ch`. -/
def TargetPC.held (ch : Nat) : TargetPC → Nat
  | .send c => c.on ch
  | .receive c => c.on ch
  | .respond c _ => c.on ch
  | _ => 0

/-- The number of peer workers about to enqueue a command on `ch`. -/
def Relay.E (s : Relay) (ch : Nat) : Nat := (s.peers.map (PeerPC.enq ch)).sum

/-- The number of peer workers waiting for the reply on `ch`. -/
def Relay.A (s : Relay) (ch : Nat) : Nat := (s.peers.map (PeerPC.awt ch)).sum

/-- The number of peer workers between the receipt of the reply on `ch` and its close. -/
def Relay.P (s : Relay) (ch : Nat) : Nat := (s.peers.map (PeerPC.rep ch)).sum

/-- The number of peer workers about to send a reply from `ch` other than `v`. -/
def Relay.B (s : Relay) (ch : Nat) (v : Bytes) : Nat := (s.peers.map (PeerPC.bad ch v)).sum

/-- The number of queued commands on `ch`. -/
def Relay.Qq (s : Relay) (ch : Nat) : Nat := (s.targetChan.map (command.on ch)).sum

/-- The number of target workers holding a command on `ch`. -/
def Relay.Qt (s : Relay) (ch : Nat) : Nat := (s.targets.map (TargetPC.held ch)).sum

/-- The shape of a reply channel and of the references to it: a fresh channel has one
command on its way to a target worker; a channel that carried a value has at most the peer
worker that received it; a closed channel has no reference left but a waiting peer worker. -/
def Good (o : Option Chan) (e q a p : Nat) (b : Bytes → Nat) : Prop :=
  match o with
  | none => e = 0 ∧ q = 0 ∧ a = 0 ∧ p = 0
  | some c =>
    (c.ops = [] ∧ e + q = 1 ∧ e + a = 1 ∧ p = 0) ∨
    (∃ v, c.ops = [ChanOp.send v] ∧ e = 0 ∧ q = 0 ∧ a = 0 ∧ p ≤ 1 ∧ b v = 0) ∨
    (c.ops = [ChanOp.close Closer.target] ∧ e = 0 ∧ q = 0 ∧ a ≤ 1 ∧ p = 0) ∨
    (∃ v, c.ops = [ChanOp.send v, ChanOp.close Closer.peer] ∧ e = 0 ∧ q = 0 ∧ a = 0 ∧ p = 0)

/-- The invariant of the relay. -/
structure Inv (s : Relay) : Prop where
  alive : s.panicked = false
  cap : s.targetChan.length ≤ targetChanCap
  good : ∀ ch, Good (s.chans[ch]?) (s.E ch) (s.Qq ch + s.Qt ch) (s.A ch) (s.P ch) (s.B ch)

/-- The command a peer worker refers to. -/
def PeerPC.cmd : PeerPC → Option command
  | .enqueue c => some c
  | .await c => some c
  | .reply c _ => some c
  | .closing c => some c
  | _ => none

/-- The command a target worker holds. -/
def TargetPC.cmd : TargetPC → Option command
  | .send c => some c
  | .receive c => some c
  | .respond c _ => some c
  | _ => none

/-- The reply channel of `C` is allocated; whoever refers to it refers to `C` itself, and
among the peer workers only worker `i` does. -/
structure Owned (i : Nat) (C : command) (s : Relay) : Prop where
  alloc : C.Respond < s.chans.length
  peers : ∀ (k : Nat) (pc : PeerPC) (x : command), s.peers[k]? = some pc → pc.cmd = some x →
    x.Respond = C.Respond → k = i ∧ x = C
  queue : ∀ x ∈ s.targetChan, x.Respond = C.Respond → x = C
  targets : ∀ (k : Nat) (pc : TargetPC) (x : command), s.targets[k]? = some pc →
    pc.cmd = some x → x.Respond = C.Respond → x = C

/-- The round trip of one command: a peer and a target connect, the peer sends
`echo hello`, the target answers `hello` and a newline, the peer worker relays it. -/
def roundTrip : List Event :=
  [.accept (some 'c'.toNat), .accept (some 't'.toNat), .peer 0 (.listen true),
   .target 0 (.listen true), .peer 0 (.receive (some ⟨.NormalMessage, str "echo hello"⟩)),
   .peer 0 .enqueue, .target 0 .dequeue, .target 0 (.send true),
   .target 0 (.receive (some ⟨.NormalMessage, str "hello\n"⟩)), .handoff 0 0,
   .peer 0 (.reply true), .peer 0 .close]

/-- Five peers connect and each receives a command; the first four enqueue theirs. -/
def fullQueue : List Event :=
  [.accept (some 'c'.toNat), .accept (some 'c'.toNat), .accept (some 'c'.toNat),
   .accept (some 'c'.toNat), .accept (some 'c'.toNat),
   .peer 0 (.listen true), .peer 1 (.listen true), .peer 2 (.listen true),
   .peer 3 (.listen true), .peer 4 (.listen true),
   .peer 0 (.receive (some ⟨.NormalMessage, [0]⟩)),
   .peer 1 (.receive (some ⟨.NormalMessage, [1]⟩)),
   .peer 2 (.receive (some ⟨.NormalMessage, [2]⟩)),
   .peer 3 (.receive (some ⟨.NormalMessage, [3]⟩)),
   .peer 4 (.receive (some ⟨.NormalMessage, [4]⟩)),
   .peer 0 .enqueue, .peer 1 .enqueue, .peer 2 .enqueue, .peer 3 .enqueue]

/-- The transitions of the relay, one rule for each branch of `step`. -/
inductive Step : Relay → Event → Relay → Prop
  | accept (s : Relay) (lead : Option Nat) : Step s (.accept lead) (main s lead)
  | peerListen (s : Relay) (i : Nat) (ok : Bool) (h : s.peers[i]? = some .listen) :
    Step s (.peer i (.listen ok)) (s.setPeer i (if ok then .receive else .done))
  | peerReceiveFail (s : Relay) (i : Nat) (h : s.peers[i]? = some .receive) :
    Step s (.peer i (.receive none)) (s.setPeer i .done)
  | peerShutdown (s : Relay) (i : Nat) (m : Message) (h : s.peers[i]? = some .receive)
    (hm : m.type = .ShutdownMessage) :
    Step s (.peer i (.receive (some m))) (s.setPeer i .done)
  | peerKex (s : Relay) (i : Nat) (m : Message) (h : s.peers[i]? = some .receive)
    (hm : m.type = .KEXMessage) :
    Step s (.peer i (.receive (some m))) (s.setPeer i .receive)
  | peerNormal (s : Relay) (i : Nat) (m : Message) (h : s.peers[i]? = some .receive)
    (hm : m.type = .NormalMessage) :
    Step s (.peer i (.receive (some m)))
      ({ s with chans := s.chans ++ [Chan.mk []] }.setPeer i
        (.enqueue { CmdLine := m.Contents, Respond := s.chans.length }))
  | peerEnqueue (s : Relay) (i : Nat) (c : command) (h : s.peers[i]? = some (.enqueue c))
    (hlt : s.targetChan.length < targetChanCap) :
    Step s (.peer i .enqueue)
      ({ s with targetChan := s.targetChan ++ [c] }.setPeer i (.await c))
  | peerAwaitClosed (s : Relay) (i : Nat) (c : command) (h : s.peers[i]? = some (.await c))
    (hcl : s.isClosed c.Respond = true) :
    Step s (.peer i .awaitClosed) (s.setPeer i .done)
  | peerReply (s : Relay) (i : Nat) (c : command) (out : Bytes) (ok : Bool)
    (h : s.peers[i]? = some (.reply c out)) :
    Step s (.peer i (.reply ok))
      ({ s with wire := s.wire ++ [Sent.toPeer i out] }.setPeer i
        (if ok then .closing c else .done))
  | peerClose (s : Relay) (i : Nat) (c : command) (h : s.peers[i]? = some (.closing c)) :
    Step s (.peer i .close) ((s.close Closer.peer c.Respond).setPeer i .receive)
  | targetListen (s : Relay) (j : Nat) (ok : Bool) (h : s.targets[j]? = some .listen) :
    Step s (.target j (.listen ok)) (s.setTarget j (if ok then .dequeue else .done))
  | targetDequeue (s : Relay) (j : Nat) (c : command) (rest : List command)
    (h : s.targets[j]? = some .dequeue) (hq : s.targetChan = c :: rest) :
    Step s (.target j .dequeue) ({ s with targetChan := rest }.setTarget j (.send c))
  | targetSend (s : Relay) (j : Nat) (c : command) (h : s.targets[j]? = some (.send c)) :
    Step s (.target j (.send true))
      ({ s with wire := s.wire ++ [Sent.toTarget j c.CmdLine] }.setTarget j (.receive c))
  | targetSendFail (s : Relay) (j : Nat) (c : command) (h : s.targets[j]? = some (.send c)) :
    Step s (.target j (.send false))
      (({ s with wire := s.wire ++ [Sent.toTarget j c.CmdLine] }.close Closer.target
        c.Respond).setTarget j .done)
  | targetReceiveFail (s : Relay) (j : Nat) (c : command)
    (h : s.targets[j]? = some (.receive c)) :
    Step s (.target j (.receive none)) ((s.close Closer.target c.Respond).setTarget j .done)
  | targetShutdown (s : Relay) (j : Nat) (c : command) (m : Message)
    (h : s.targets[j]? = some (.receive c)) (hm : m.type = .ShutdownMessage) :
    Step s (.target j (.receive (some m)))
      ((s.close Closer.target c.Respond).setTarget j .done)
  | targetKex (s : Relay) (j : Nat) (c : command) (m : Message)
    (h : s.targets[j]? = some (.receive c)) (hm : m.type = .KEXMessage) :
    Step s (.target j (.receive (some m))) (s.setTarget j (.receive c))
  | targetNormal (s : Relay) (j : Nat) (c : command) (m : Message)
    (h : s.targets[j]? = some (.receive c)) (hm : m.type = .NormalMessage) :
    Step s (.target j (.receive (some m))) (s.setTarget j (.respond c m.Contents))
  | targetRespondClosed (s : Relay) (j : Nat) (c : command) (v : Bytes)
    (h : s.targets[j]? = some (.respond c v)) (hcl : s.isClosed c.Respond = true) :
    Step s (.target j .respondClosed) { s with panicked := true }
  | handoff (s : Relay) (j i : Nat) (c c1 : command) (v : Bytes)
    (hj : s.targets[j]? = some (.respond c v)) (hi : s.peers[i]? = some (.await c1))
    (hcc : c.Respond = c1.Respond) (hcl : s.isClosed c.Respond = false) :
    Step s (.handoff j i)
      (((s.sendOn c.Respond v).setTarget j .dequeue).setPeer i (.reply c1 v))

/-- The state after the events `es`, from the initial state (the initial state itself when
some event of `es` is not enabled). -/
def after (es : List Event) : Relay := (run init es).getD init

/-- Two peers enqueue one command each; the target worker dequeues the first, sends it, and
is waiting for the reply. -/
def kexTrace : List Event :=
  [.accept (some 'c'.toNat), .accept (some 'c'.toNat), .accept (some 't'.toNat),
   .peer 0 (.listen true), .peer 1 (.listen true), .target 0 (.listen true),
   .peer 0 (.receive (some ⟨.NormalMessage, [1]⟩)), .peer 0 .enqueue,
   .peer 1 (.receive (some ⟨.NormalMessage, [2]⟩)), .peer 1 .enqueue,
   .target 0 .dequeue, .target 0 (.send true)]

/-- Two peers enqueue one command each; the target worker dequeues the first and fails to
send it. -/
def abortTrace : List Event :=
  [.accept (some 'c'.toNat), .accept (some 'c'.toNat), .accept (some 't'.toNat),
   .peer 0 (.listen true), .peer 1 (.listen true), .target 0 (.listen true),
   .peer 0 (.receive (some ⟨.NormalMessage, [1]⟩)), .peer 0 .enqueue,
   .peer 1 (.receive (some ⟨.NormalMessage, [2]⟩)), .peer 1 .enqueue,
   .target 0 .dequeue, .target 0 (.send false)]

end Server

namespace Mshelld

/-- The error of `cmd.CombinedOutput`: an `*exec.ExitError` (the process ran and exited with
a non-zero status) or any other error (the process could not be run). -/
inductive ExecErr
  | exitError
  | other
deriving DecidableEq, Repr

/-- What the environment answers during one iteration of the loop of `session`. -/
structure Env where
  /-- The result of `sch.Receive` (`none`: not ok). -/
  received : Option Message
  /-- Whether `writeTempFile` succeeded. -/
  tempOk : Bool
  /-- The output returned by `cmd.CombinedOutput`. -/
  out : Bytes
  /-- The error returned by `cmd.CombinedOutput`. -/
  err : Option ExecErr
  /-- The result of `sch.Send`. -/
  sendOk : Bool

/-- What one iteration did: the arguments of its `sch.Send` calls, and whether `session`
returned. -/
structure Iter where
  sent : List Bytes
  returned : Bool
deriving DecidableEq, Repr

/-- The placeholder sent for an empty output. -/
def noOutput : Bytes := str "<no output>"

/-- One iteration of the `for` loop of `session`. -/
def session (e : Env) : Iter :=
  match e.received with
  | none => ⟨[], true⟩
  | some m =>
    match m.type with
    | .ShutdownMessage => ⟨[], true⟩
    | .KEXMessage => ⟨[], false⟩
    | .NormalMessage =>
      if e.tempOk = false then ⟨[], true⟩
      else if e.err = some ExecErr.other then ⟨[], false⟩
      else
        let out := if e.out.length = 0 then noOutput else e.out
        ⟨[out], !e.sendOk⟩

end Mshelld

namespace Mshell

/-- What the client prints for a received message, and whether `main` returns. -/
structure Shown where
  printed : Bytes
  returned : Bool
deriving DecidableEq, Repr

/-- The `switch m.Type` of the loop of `main` in mshell.go. -/
def main (m : Message) : Shown :=
  match m.type with
  | .ShutdownMessage => ⟨str "[*] server is shutting down channel" ++ str "\n", true⟩
  | .KEXMessage => ⟨str "[*] server has rotated keys" ++ str "\n", true⟩
  | .NormalMessage => ⟨str "output:\n------\n" ++ m.Contents ++ str "\n", false⟩

end Mshell

/-! ## Theorems -/

namespace Server

/-! ### Sums over the workers and the queue -/

theorem sum_map_set {α : Type} (f : α → Nat) (l : List α) (i : Nat) (x y : α)
    (h : l[i]? = some x) : ((l.set i y).map f).sum + f x = (l.map f).sum + f y := by
  induction l generalizing i with
  | nil => simp at h
  | cons a t ih =>
    cases i with
    | zero =>
      simp at h
      subst h
      simp only [List.set_cons_zero, List.map_cons, List.sum_cons]
      omega
    | succ n =>
      simp at h
      have := ih n h
      simp only [List.set_cons_succ, List.map_cons, List.sum_cons]
      omega

theorem le_sum_map {α : Type} (f : α → Nat) (l : List α) (i : Nat) (x : α)
    (h : l[i]? = some x) : f x ≤ (l.map f).sum := by
  induction l generalizing i with
  | nil => simp at h
  | cons a t ih =>
    cases i with
    | zero =>
      simp at h
      subst h
      simp
    | succ n =>
      simp at h
      have := ih n h
      simp only [List.map_cons, List.sum_cons]
      omega

theorem add_le_sum_map {α : Type} (f : α → Nat) (l : List α) (i k : Nat) (x y : α)
    (hik : i ≠ k) (h : l[i]? = some x) (hk : l[k]? = some y) : f x + f y ≤ (l.map f).sum := by
  induction l generalizing i k with
  | nil => simp at h
  | cons a t ih =>
    cases i with
    | zero =>
      cases k with
      | zero => exact absurd rfl hik
      | succ m =>
        simp at h hk
        subst h
        have := le_sum_map f t m y hk
        simp only [List.map_cons, List.sum_cons]
        omega
    | succ n =>
      cases k with
      | zero =>
        simp at h hk
        subst hk
        have := le_sum_map f t n x h
        simp only [List.map_cons, List.sum_cons]
        omega
      | succ m =>
        simp at h hk
        have hne : n ≠ m := fun e => hik (by rw [e])
        have := ih n m hne h hk
        simp only [List.map_cons, List.sum_cons]
        omega

theorem exists_of_sum_map_pos {α : Type} (f : α → Nat) (l : List α)
    (h : 0 < (l.map f).sum) : ∃ (i : Nat) (x : α), l[i]? = some x ∧ 0 < f x := by
  induction l with
  | nil => simp at h
  | cons a t ih =>
    by_cases ha : 0 < f a
    · refine ⟨0, a, ?_, ha⟩
      simp
    · have : 0 < (t.map f).sum := by
        simp only [List.map_cons, List.sum_cons] at h
        omega
      obtain ⟨i, x, hx, hpos⟩ := ih this
      refine ⟨i + 1, x, ?_, hpos⟩
      simpa using hx

/-! ### The state updates -/

@[simp] theorem setPeer_peers (s : Relay) (i : Nat) (pc : PeerPC) :
    (s.setPeer i pc).peers = s.peers.set i pc := rfl

@[simp] theorem setPeer_targets (s : Relay) (i : Nat) (pc : PeerPC) :
    (s.setPeer i pc).targets = s.targets := rfl

@[simp] theorem setPeer_targetChan (s : Relay) (i : Nat) (pc : PeerPC) :
    (s.setPeer i pc).targetChan = s.targetChan := rfl

@[simp] theorem setPeer_chans (s : Relay) (i : Nat) (pc : PeerPC) :
    (s.setPeer i pc).chans = s.chans := rfl

@[simp] theorem setPeer_wire (s : Relay) (i : Nat) (pc : PeerPC) :
    (s.setPeer i pc).wire = s.wire := rfl

@[simp] theorem setPeer_panicked (s : Relay) (i : Nat) (pc : PeerPC) :
    (s.setPeer i pc).panicked = s.panicked := rfl

@[simp] theorem setTarget_peers (s : Relay) (j : Nat) (pc : TargetPC) :
    (s.setTarget j pc).peers = s.peers := rfl

@[simp] theorem setTarget_targets (s : Relay) (j : Nat) (pc : TargetPC) :
    (s.setTarget j pc).targets = s.targets.set j pc := rfl

@[simp] theorem setTarget_targetChan (s : Relay) (j : Nat) (pc : TargetPC) :
    (s.setTarget j pc).targetChan = s.targetChan := rfl

@[simp] theorem setTarget_chans (s : Relay) (j : Nat) (pc : TargetPC) :
    (s.setTarget j pc).chans = s.chans := rfl

@[simp] theorem setTarget_wire (s : Relay) (j : Nat) (pc : TargetPC) :
    (s.setTarget j pc).wire = s.wire := rfl

@[simp] theorem setTarget_panicked (s : Relay) (j : Nat) (pc : TargetPC) :
    (s.setTarget j pc).panicked = s.panicked := rfl

@[simp] theorem close_peers (s : Relay) (w : Closer) (ch : Nat) :
    (s.close w ch).peers = s.peers := by
  unfold Relay.close; split <;> [split; skip] <;> rfl

@[simp] theorem close_targets (s : Relay) (w : Closer) (ch : Nat) :
    (s.close w ch).targets = s.targets := by
  unfold Relay.close; split <;> [split; skip] <;> rfl

@[simp] theorem close_targetChan (s : Relay) (w : Closer) (ch : Nat) :
    (s.close w ch).targetChan = s.targetChan := by
  unfold Relay.close; split <;> [split; skip] <;> rfl

@[simp] theorem close_wire (s : Relay) (w : Closer) (ch : Nat) :
    (s.close w ch).wire = s.wire := by
  unfold Relay.close; split <;> [split; skip] <;> rfl

@[simp] theorem sendOn_peers (s : Relay) (ch : Nat) (v : Bytes) :
    (s.sendOn ch v).peers = s.peers := by
  unfold Relay.sendOn; split <;> rfl

@[simp] theorem sendOn_targets (s : Relay) (ch : Nat) (v : Bytes) :
    (s.sendOn ch v).targets = s.targets := by
  unfold Relay.sendOn; split <;> rfl

@[simp] theorem sendOn_targetChan (s : Relay) (ch : Nat) (v : Bytes) :
    (s.sendOn ch v).targetChan = s.targetChan := by
  unfold Relay.sendOn; split <;> rfl

@[simp] theorem sendOn_wire (s : Relay) (ch : Nat) (v : Bytes) :
    (s.sendOn ch v).wire = s.wire := by
  unfold Relay.sendOn; split <;> rfl

@[simp] theorem sendOn_panicked (s : Relay) (ch : Nat) (v : Bytes) :
    (s.sendOn ch v).panicked = s.panicked := by
  unfold Relay.sendOn; split <;> rfl

/-- Closing an open channel appends the close to its history and does not panic. -/
theorem close_open (s : Relay) (w : Closer) (ch : Nat) (c : Chan) (h : s.chans[ch]? = some c)
    (ho : c.closed = false) :
    (s.close w ch).chans = s.chans.set ch (Chan.mk (c.ops ++ [ChanOp.close w])) ∧
      (s.close w ch).panicked = s.panicked := by
  unfold Relay.close
  rw [h]
  simp [ho]

theorem sendOn_chans (s : Relay) (ch : Nat) (v : Bytes) (c : Chan) (h : s.chans[ch]? = some c) :
    (s.sendOn ch v).chans = s.chans.set ch (Chan.mk (c.ops ++ [ChanOp.send v])) := by
  unfold Relay.sendOn
  rw [h]

theorem getElem?_set_self_of_some {α : Type} (l : List α) (i : Nat) (x y : α)
    (h : l[i]? = some x) : (l.set i y)[i]? = some y := by
  rcases List.getElem?_eq_some.1 h with ⟨hlt, _⟩
  rw [List.getElem?_set]
  simp [hlt]

/-! ### The shape of a reply channel and of the references to it -/

theorem Good.mono {o : Option Chan} {e q a p : Nat} {b : Bytes → Nat} (p1 : Nat)
    (b1 : Bytes → Nat) (hg : Good o e q a p b) (hp : p1 ≤ p) (hb : ∀ v, b1 v ≤ b v) :
    Good o e q a p1 b1 := by
  cases o with
  | none =>
    simp only [Good] at hg ⊢
    omega
  | some c =>
    simp only [Good] at hg ⊢
    rcases hg with ⟨h1, h2, h3, h4⟩ | ⟨v, h1, h2, h3, h4, h5, h6⟩ | ⟨h1, h2, h3, h4, h5⟩ |
      ⟨v, h1, h2, h3, h4, h5⟩
    · exact Or.inl ⟨h1, h2, h3, by omega⟩
    · have := hb v
      exact Or.inr (Or.inl ⟨v, h1, h2, h3, h4, by omega, by omega⟩)
    · exact Or.inr (Or.inr (Or.inl ⟨h1, h2, h3, h4, by omega⟩))
    · exact Or.inr (Or.inr (Or.inr ⟨v, h1, h2, h3, h4, by omega⟩))

/-- The command passes from the peer worker to the queue. -/
theorem Good.enqueue {o : Option Chan} {e q a p : Nat} {b : Bytes → Nat}
    (hg : Good o (e + 1) q a p b) : Good o e (q + 1) (a + 1) p b := by
  cases o with
  | none =>
    simp only [Good] at hg ⊢
    omega
  | some c =>
    simp only [Good] at hg ⊢
    rcases hg with ⟨h1, h2, h3, h4⟩ | ⟨v, h1, h2, h3, h4, h5, h6⟩ | ⟨h1, h2, h3, h4, h5⟩ |
      ⟨v, h1, h2, h3, h4, h5⟩
    · exact Or.inl ⟨h1, by omega, by omega, h4⟩
    all_goals omega

/-- A reference held on the way to the target means that the channel is fresh. -/
theorem Good.fresh_of_held {o : Option Chan} {e q a p : Nat} {b : Bytes → Nat}
    (hg : Good o e q a p b) (hq : 0 < e + q) :
    ∃ c, o = some c ∧ c.ops = [] ∧ e + q = 1 ∧ e + a = 1 ∧ p = 0 := by
  cases o with
  | none =>
    simp only [Good] at hg
    omega
  | some c =>
    simp only [Good] at hg
    rcases hg with ⟨h1, h2, h3, h4⟩ | ⟨v, h1, h2, h3, h4, h5, h6⟩ | ⟨h1, h2, h3, h4, h5⟩ |
      ⟨v, h1, h2, h3, h4, h5⟩
    · exact ⟨c, rfl, h1, h2, h3, h4⟩
    all_goals omega

/-- A peer worker past the receipt means that the channel carried exactly that value. -/
theorem Good.sent_of_rep {o : Option Chan} {e q a p : Nat} {b : Bytes → Nat}
    (hg : Good o e q a p b) (hp : 0 < p) :
    ∃ c v, o = some c ∧ c.ops = [ChanOp.send v] ∧ e = 0 ∧ q = 0 ∧ a = 0 ∧ p = 1 ∧ b v = 0 := by
  cases o with
  | none =>
    simp only [Good] at hg
    omega
  | some c =>
    simp only [Good] at hg
    rcases hg with ⟨h1, h2, h3, h4⟩ | ⟨v, h1, h2, h3, h4, h5, h6⟩ | ⟨h1, h2, h3, h4, h5⟩ |
      ⟨v, h1, h2, h3, h4, h5⟩
    · omega
    · exact ⟨c, v, rfl, h1, h2, h3, h4, by omega, h6⟩
    all_goals omega

/-- A waiting peer worker sees a closed channel only after a target worker closed it. -/
theorem Good.closed_of_await {c : Chan} {e q a p : Nat} {b : Bytes → Nat}
    (hg : Good (some c) e q a p b) (ha : 0 < a) (hc : c.closed = true) :
    c.ops = [ChanOp.close Closer.target] ∧ e = 0 ∧ q = 0 ∧ a = 1 ∧ p = 0 := by
  simp only [Good] at hg
  rcases hg with ⟨h1, h2, h3, h4⟩ | ⟨v, h1, h2, h3, h4, h5, h6⟩ | ⟨h1, h2, h3, h4, h5⟩ |
    ⟨v, h1, h2, h3, h4, h5⟩
  · rw [Chan.closed, h1] at hc
    simp at hc
  · omega
  · exact ⟨h1, h2, h3, by omega, h5⟩
  · omega

theorem sum_map_le {α : Type} (f g : α → Nat) (l : List α) (h : ∀ x, f x ≤ g x) :
    (l.map f).sum ≤ (l.map g).sum := by
  induction l with
  | nil => simp
  | cons a t ih =>
    have := h a
    simp only [List.map_cons, List.sum_cons]
    omega

theorem B_le_P (s : Relay) (ch : Nat) (v : Bytes) : s.B ch v ≤ s.P ch := by
  apply sum_map_le
  intro pc
  cases pc <;> simp [PeerPC.bad, PeerPC.rep]
  split <;> omega

theorem on_le_one (c : command) (ch : Nat) : c.on ch ≤ 1 := by
  unfold command.on; split <;> omega

theorem on_self (c : command) : c.on c.Respond = 1 := by
  simp [command.on]

theorem on_ne (c : command) (ch : Nat) (h : ch ≠ c.Respond) : c.on ch = 0 := by
  simp [command.on, Ne.symm h]

/-- A peer worker moves between program points that refer to the same channels. -/
theorem good_peer_move (s s1 : Relay) (i : Nat) (pc pc1 : PeerPC) (ch : Nat)
    (hpc : s.peers[i]? = some pc) (hp : s1.peers = s.peers.set i pc1)
    (ht : s1.targets = s.targets) (hq : s1.targetChan = s.targetChan)
    (hc : s1.chans = s.chans)
    (he : pc1.enq ch = pc.enq ch) (ha : pc1.awt ch = pc.awt ch)
    (hr : pc1.rep ch ≤ pc.rep ch) (hb : ∀ v, pc1.bad ch v ≤ pc.bad ch v)
    (hg : Good (s.chans[ch]?) (s.E ch) (s.Qq ch + s.Qt ch) (s.A ch) (s.P ch) (s.B ch)) :
    Good (s1.chans[ch]?) (s1.E ch) (s1.Qq ch + s1.Qt ch) (s1.A ch) (s1.P ch) (s1.B ch) := by
  have hE := sum_map_set (PeerPC.enq ch) s.peers i pc pc1 hpc
  have hA := sum_map_set (PeerPC.awt ch) s.peers i pc pc1 hpc
  have hP := sum_map_set (PeerPC.rep ch) s.peers i pc pc1 hpc
  have hB := fun v => sum_map_set (PeerPC.bad ch v) s.peers i pc pc1 hpc
  have hE1 : s1.E ch = s.E ch := by
    simp only [Relay.E, hp]; omega
  have hA1 : s1.A ch = s.A ch := by
    simp only [Relay.A, hp]; omega
  have hP1 : s1.P ch ≤ s.P ch := by
    simp only [Relay.P, hp]; omega
  have hB1 : ∀ v, s1.B ch v ≤ s.B ch v := by
    intro v
    have := hB v
    have := hb v
    simp only [Relay.B, hp]; omega
  have hQ : s1.Qq ch + s1.Qt ch = s.Qq ch + s.Qt ch := by
    simp only [Relay.Qq, Relay.Qt, ht, hq]
  rw [hc, hE1, hA1, hQ]
  exact Good.mono _ _ hg hP1 hB1

/-- A target worker moves between program points that hold the same command. -/
theorem good_target_move (s s1 : Relay) (j : Nat) (pc pc1 : TargetPC) (ch : Nat)
    (hpc : s.targets[j]? = some pc) (hp : s1.peers = s.peers)
    (ht : s1.targets = s.targets.set j pc1) (hq : s1.targetChan = s.targetChan)
    (hc : s1.chans = s.chans) (hh : pc1.held ch = pc.held ch)
    (hg : Good (s.chans[ch]?) (s.E ch) (s.Qq ch + s.Qt ch) (s.A ch) (s.P ch) (s.B ch)) :
    Good (s1.chans[ch]?) (s1.E ch) (s1.Qq ch + s1.Qt ch) (s1.A ch) (s1.P ch) (s1.B ch) := by
  have hT := sum_map_set (TargetPC.held ch) s.targets j pc pc1 hpc
  have hQ : s1.Qq ch + s1.Qt ch = s.Qq ch + s.Qt ch := by
    simp only [Relay.Qq, Relay.Qt, ht, hq]; omega
  have hE1 : s1.E ch = s.E ch := by simp only [Relay.E, hp]
  have hA1 : s1.A ch = s.A ch := by simp only [Relay.A, hp]
  have hP1 : s1.P ch = s.P ch := by simp only [Relay.P, hp]
  have hB1 : s1.B ch = s.B ch := by
    funext v
    simp only [Relay.B, hp]
  rw [hc, hE1, hA1, hQ, hP1, hB1]
  exact hg

/-- A target worker closes the channel of the command it holds. -/
theorem good_close_target (s s1 : Relay) (k ch : Nat) (e q a p : Nat) (b : Bytes → Nat)
    (c : Chan) (hk : s.chans[k]? = some c)
    (hs : s1.chans = s.chans.set k (Chan.mk (c.ops ++ [ChanOp.close Closer.target])))
    (hg : Good (s.chans[ch]?) e (q + (if k = ch then 1 else 0)) a p b) :
    Good (s1.chans[ch]?) e q a p b := by
  rw [hs, List.getElem?_set]
  have hlt : k < s.chans.length := (List.getElem?_eq_some.1 hk).1
  by_cases hkc : k = ch
  · subst hkc
    simp only [hlt, if_true] at hg ⊢
    rw [hk] at hg
    obtain ⟨c1, h1, h2, h3, h4, h5⟩ := Good.fresh_of_held hg (by omega)
    cases h1
    have h2a : c.ops ++ [ChanOp.close Closer.target] = [ChanOp.close Closer.target] := by
      rw [h2]; rfl
    rw [h2a]
    exact Or.inr (Or.inr (Or.inl ⟨rfl, by omega, by omega, by omega, by omega⟩))
  · simp only [hkc, if_false, add_zero] at hg ⊢
    exact hg

/-- A peer worker closes the channel it received its reply on. -/
theorem good_close_peer (s s1 : Relay) (k ch : Nat) (e q a p : Nat) (b : Bytes → Nat)
    (c : Chan) (hk : s.chans[k]? = some c)
    (hs : s1.chans = s.chans.set k (Chan.mk (c.ops ++ [ChanOp.close Closer.peer])))
    (hg : Good (s.chans[ch]?) e q a (p + (if k = ch then 1 else 0)) b) :
    Good (s1.chans[ch]?) e q a p b := by
  rw [hs, List.getElem?_set]
  have hlt : k < s.chans.length := (List.getElem?_eq_some.1 hk).1
  by_cases hkc : k = ch
  · subst hkc
    simp only [hlt, if_true] at hg ⊢
    rw [hk] at hg
    obtain ⟨c1, v, h1, h2, h3, h4, h5, h6, h7⟩ := Good.sent_of_rep hg (by omega)
    cases h1
    have h2a : c.ops ++ [ChanOp.close Closer.peer] =
        [ChanOp.send v, ChanOp.close Closer.peer] := by
      rw [h2]; rfl
    rw [h2a]
    exact Or.inr (Or.inr (Or.inr ⟨v, rfl, by omega, by omega, by omega, by omega⟩))
  · simp only [hkc, if_false, add_zero] at hg ⊢
    exact hg

/-- The value passes from a target worker to the waiting peer worker. -/
theorem good_handoff (s s1 : Relay) (k ch : Nat) (v : Bytes) (e q a p : Nat)
    (b b1 : Bytes → Nat) (c : Chan) (hk : s.chans[k]? = some c)
    (hs : s1.chans = s.chans.set k (Chan.mk (c.ops ++ [ChanOp.send v])))
    (hb : ∀ w, b w ≤ p) (hb1 : ∀ w, b1 w = b w + (if v = w then 0 else if k = ch then 1 else 0))
    (hg : Good (s.chans[ch]?) e (q + (if k = ch then 1 else 0))
      (a + (if k = ch then 1 else 0)) p b) :
    Good (s1.chans[ch]?) e q a (p + (if k = ch then 1 else 0)) b1 := by
  rw [hs, List.getElem?_set]
  have hlt : k < s.chans.length := (List.getElem?_eq_some.1 hk).1
  by_cases hkc : k = ch
  · subst hkc
    simp only [hlt, if_true] at hg hb1 ⊢
    rw [hk] at hg
    obtain ⟨c1, h1, h2, h3, h4, h5⟩ := Good.fresh_of_held hg (by omega)
    cases h1
    have h2a : c.ops ++ [ChanOp.send v] = [ChanOp.send v] := by
      rw [h2]; rfl
    rw [h2a]
    have := hb v
    have := hb1 v
    simp only [if_true] at this
    exact Or.inr (Or.inl ⟨v, rfl, by omega, by omega, by omega, by omega, by omega⟩)
  · simp only [hkc, if_false, add_zero] at hg hb1 ⊢
    have : b1 = b := by
      funext w
      rw [hb1 w]
      split <;> rfl
    rw [this]
    exact hg

/-- A peer worker makes a fresh channel for the command it is about to enqueue. -/
theorem good_create (s s1 : Relay) (ch : Nat) (e q a p : Nat) (b : Bytes → Nat)
    (hs : s1.chans = s.chans ++ [Chan.mk []])
    (hg : Good (s.chans[ch]?) e q a p b) :
    Good (s1.chans[ch]?) (e + (if s.chans.length = ch then 1 else 0)) q a p b := by
  rw [hs]
  by_cases hkc : s.chans.length = ch
  · have hn : s.chans[ch]? = none := List.getElem?_eq_none (by omega)
    rw [hn] at hg
    simp only [Good] at hg
    have : (s.chans ++ [Chan.mk []])[ch]? = some (Chan.mk []) := by
      rw [List.getElem?_append_right (by omega)]
      simp [← hkc]
    rw [this]
    simp only [hkc, if_true]
    exact Or.inl ⟨rfl, by omega, by omega, by omega⟩
  · simp only [hkc, if_false, add_zero]
    by_cases hlt : ch < s.chans.length
    · rw [List.getElem?_append_left hlt]
      exact hg
    · have hn : s.chans[ch]? = none := List.getElem?_eq_none (by omega)
      have hn1 : (s.chans ++ [Chan.mk []])[ch]? = none :=
        List.getElem?_eq_none (by simp; omega)
      rw [hn1]
      rw [hn] at hg
      exact hg

/-! ### The invariant is kept by every transition -/

/-- A peer worker step that keeps the references of the worker keeps the invariant. -/
theorem inv_peer_move (s s1 : Relay) (i : Nat) (pc pc1 : PeerPC) (hinv : Inv s)
    (hpc : s.peers[i]? = some pc) (hp : s1.peers = s.peers.set i pc1)
    (ht : s1.targets = s.targets) (hq : s1.targetChan = s.targetChan)
    (hc : s1.chans = s.chans) (hpan : s1.panicked = s.panicked)
    (he : ∀ ch, pc1.enq ch = pc.enq ch) (ha : ∀ ch, pc1.awt ch = pc.awt ch)
    (hr : ∀ ch, pc1.rep ch ≤ pc.rep ch) (hb : ∀ ch v, pc1.bad ch v ≤ pc.bad ch v) :
    Inv s1 := by
  refine ⟨by rw [hpan]; exact hinv.alive, by rw [hq]; exact hinv.cap, fun ch => ?_⟩
  exact good_peer_move s s1 i pc pc1 ch hpc hp ht hq hc (he ch) (ha ch) (hr ch) (hb ch)
    (hinv.good ch)

/-- A target worker step that keeps the command of the worker keeps the invariant. -/
theorem inv_target_move (s s1 : Relay) (j : Nat) (pc pc1 : TargetPC) (hinv : Inv s)
    (hpc : s.targets[j]? = some pc) (hp : s1.peers = s.peers)
    (ht : s1.targets = s.targets.set j pc1) (hq : s1.targetChan = s.targetChan)
    (hc : s1.chans = s.chans) (hpan : s1.panicked = s.panicked)
    (hh : ∀ ch, pc1.held ch = pc.held ch) : Inv s1 := by
  refine ⟨by rw [hpan]; exact hinv.alive, by rw [hq]; exact hinv.cap, fun ch => ?_⟩
  exact good_target_move s s1 j pc pc1 ch hpc hp ht hq hc (hh ch) (hinv.good ch)

/-- A waiting peer worker leaves after it saw the channel closed. -/
theorem Good.awaitClosed {c : Chan} {e q a p : Nat} {b : Bytes → Nat}
    (hg : Good (some c) e q (a + 1) p b) (hc : c.closed = true) : Good (some c) e q a p b := by
  obtain ⟨h1, h2, h3, h4, h5⟩ := Good.closed_of_await hg (by omega) hc
  exact Or.inr (Or.inr (Or.inl ⟨h1, h2, h3, by omega, h5⟩))

theorem closed_false_of_ops_nil (c : Chan) (h : c.ops = []) : c.closed = false := by
  simp [Chan.closed, h]

theorem closed_false_of_ops_send (c : Chan) (v : Bytes) (h : c.ops = [ChanOp.send v]) :
    c.closed = false := by
  simp [Chan.closed, h, ChanOp.isClose]

theorem Good.congr {o : Option Chan} {e q a p e1 q1 a1 p1 : Nat} {b b1 : Bytes → Nat}
    (hg : Good o e q a p b) (he : e1 = e) (hq : q1 = q) (ha : a1 = a) (hp : p1 = p)
    (hb : ∀ v, b1 v = b v) : Good o e1 q1 a1 p1 b1 := by
  have : b1 = b := funext hb
  subst he hq ha hp this
  exact hg

/-- The steps of `peerListener` keep the invariant. -/
theorem inv_peer (s s1 : Relay) (i : Nat) (pc : PeerPC) (a : PeerAct) (hinv : Inv s)
    (hpc : s.peers[i]? = some pc) (h : peerListener s i pc a = some s1) : Inv s1 := by
  cases pc with
  | listen =>
    cases a with
    | listen ok =>
      simp only [peerListener, Option.some.injEq] at h
      subst h
      refine inv_peer_move s _ i _ (if ok then .receive else .done) hinv hpc rfl rfl rfl rfl rfl
        ?_ ?_ ?_ ?_ <;> intros <;>
        cases ok <;> simp [PeerPC.enq, PeerPC.awt, PeerPC.rep, PeerPC.bad]
    | _ => simp [peerListener] at h
  | receive =>
    cases a with
    | receive m =>
      cases m with
      | none =>
        simp only [peerListener, Option.some.injEq] at h
        subst h
        refine inv_peer_move s _ i _ .done hinv hpc rfl rfl rfl rfl rfl ?_ ?_ ?_ ?_ <;>
          intros <;> simp [PeerPC.enq, PeerPC.awt, PeerPC.rep, PeerPC.bad]
      | some m =>
        simp only [peerListener] at h
        split at h
        · simp only [Option.some.injEq] at h
          subst h
          refine inv_peer_move s _ i _ .done hinv hpc rfl rfl rfl rfl rfl ?_ ?_ ?_ ?_ <;>
            intros <;> simp [PeerPC.enq, PeerPC.awt, PeerPC.rep, PeerPC.bad]
        · simp only [Option.some.injEq] at h
          subst h
          refine inv_peer_move s _ i _ .receive hinv hpc rfl rfl rfl rfl rfl ?_ ?_ ?_ ?_ <;>
            intros <;> simp [PeerPC.enq, PeerPC.awt, PeerPC.rep, PeerPC.bad]
        · simp only [Option.some.injEq] at h
          subst h
          refine ⟨hinv.alive, hinv.cap, fun ch => ?_⟩
          have hg := good_create s ({ s with chans := s.chans ++ [Chan.mk []] }.setPeer i
            (.enqueue { CmdLine := m.Contents, Respond := s.chans.length })) ch _ _ _ _ _ rfl
            (hinv.good ch)
          have hE := sum_map_set (PeerPC.enq ch) s.peers i _
            (.enqueue { CmdLine := m.Contents, Respond := s.chans.length }) hpc
          have hA := sum_map_set (PeerPC.awt ch) s.peers i _
            (.enqueue { CmdLine := m.Contents, Respond := s.chans.length }) hpc
          have hP := sum_map_set (PeerPC.rep ch) s.peers i _
            (.enqueue { CmdLine := m.Contents, Respond := s.chans.length }) hpc
          have hB := fun v => sum_map_set (PeerPC.bad ch v) s.peers i _
            (.enqueue { CmdLine := m.Contents, Respond := s.chans.length }) hpc
          simp only [PeerPC.enq, PeerPC.awt, PeerPC.rep, PeerPC.bad, command.on,
            add_zero] at hE hA hP hB
          refine Good.congr hg ?_ ?_ ?_ ?_ ?_
          · simp only [Relay.E, setPeer_peers]; omega
          · simp only [Relay.Qq, Relay.Qt, setPeer_targets, setPeer_targetChan]
          · simp only [Relay.A, setPeer_peers]; omega
          · simp only [Relay.P, setPeer_peers]; omega
          · intro v
            simp only [Relay.B, setPeer_peers]
            exact hB v
    | _ => simp [peerListener] at h
  | enqueue c =>
    cases a with
    | enqueue =>
      simp only [peerListener] at h
      split at h
      · rename_i hlt
        simp only [Option.some.injEq] at h
        subst h
        refine ⟨hinv.alive, ?_, fun ch => ?_⟩
        · simp only [setPeer_targetChan, List.length_append, List.length_singleton]
          unfold targetChanCap at hlt ⊢
          omega
        · have hE := sum_map_set (PeerPC.enq ch) s.peers i _ (.await c) hpc
          have hA := sum_map_set (PeerPC.awt ch) s.peers i _ (.await c) hpc
          have hP := sum_map_set (PeerPC.rep ch) s.peers i _ (.await c) hpc
          have hB := fun v => sum_map_set (PeerPC.bad ch v) s.peers i _ (.await c) hpc
          simp only [PeerPC.enq, PeerPC.awt, PeerPC.rep, PeerPC.bad, add_zero] at hE hA hP hB
          have hg := hinv.good ch
          by_cases hz : c.Respond = ch
          · simp only [command.on, hz, if_true] at hE hA
            have hg1 : Good (s.chans[ch]?) ((s.setPeer i (.await c)).E ch + 1)
                (s.Qq ch + s.Qt ch) (s.A ch) (s.P ch) (s.B ch) := by
              refine Good.congr hg ?_ rfl rfl rfl (fun _ => rfl)
              simp only [Relay.E, setPeer_peers]; omega
            refine Good.congr (Good.enqueue hg1) ?_ ?_ ?_ ?_ ?_
            · simp only [Relay.E, setPeer_peers]
            · simp only [Relay.Qq, Relay.Qt, setPeer_targets, setPeer_targetChan,
                List.map_append, List.sum_append, List.map_cons, List.map_nil, List.sum_cons,
                List.sum_nil, command.on, hz, if_true]
              omega
            · simp only [Relay.A, setPeer_peers]; omega
            · simp only [Relay.P, setPeer_peers]; omega
            · intro v
              simp only [Relay.B, setPeer_peers]
              exact hB v
          · simp only [command.on, hz, if_false, add_zero] at hE hA
            refine Good.congr hg ?_ ?_ ?_ ?_ ?_
            · simp only [Relay.E, setPeer_peers]; omega
            · simp only [Relay.Qq, Relay.Qt, setPeer_targets, setPeer_targetChan,
                List.map_append, List.sum_append, List.map_cons, List.map_nil, List.sum_cons,
                List.sum_nil, command.on, hz, if_false]
              omega
            · simp only [Relay.A, setPeer_peers]; omega
            · simp only [Relay.P, setPeer_peers]; omega
            · intro v
              simp only [Relay.B, setPeer_peers]
              exact hB v
      · simp at h
    | _ => simp [peerListener] at h
  | await c =>
    cases a with
    | awaitClosed =>
      simp only [peerListener] at h
      split at h
      · rename_i hcl
        simp only [Option.some.injEq] at h
        subst h
        refine ⟨hinv.alive, hinv.cap, fun ch => ?_⟩
        have hE := sum_map_set (PeerPC.enq ch) s.peers i _ .done hpc
        have hA := sum_map_set (PeerPC.awt ch) s.peers i _ .done hpc
        have hP := sum_map_set (PeerPC.rep ch) s.peers i _ .done hpc
        have hB := fun v => sum_map_set (PeerPC.bad ch v) s.peers i _ .done hpc
        simp only [PeerPC.enq, PeerPC.awt, PeerPC.rep, PeerPC.bad, add_zero] at hE hA hP hB
        have hg := hinv.good ch
        by_cases hz : c.Respond = ch
        · simp only [command.on, hz, if_true] at hA
          subst hz
          unfold Relay.isClosed at hcl
          cases hch : s.chans[c.Respond]? with
          | none => simp [hch] at hcl
          | some c0 =>
            simp only [hch] at hcl
            rw [hch] at hg
            have hg1 : Good (some c0) (s.E c.Respond) (s.Qq c.Respond + s.Qt c.Respond)
                ((s.setPeer i .done).A c.Respond + 1) (s.P c.Respond) (s.B c.Respond) := by
              refine Good.congr hg rfl rfl ?_ rfl (fun _ => rfl)
              simp only [Relay.A, setPeer_peers]; omega
            simp only [setPeer_chans, hch]
            refine Good.congr (Good.awaitClosed hg1 hcl) ?_ ?_ ?_ ?_ ?_
            · simp only [Relay.E, setPeer_peers]; omega
            · simp only [Relay.Qq, Relay.Qt, setPeer_targets, setPeer_targetChan]
            · rfl
            · simp only [Relay.P, setPeer_peers]; omega
            · intro v
              simp only [Relay.B, setPeer_peers]
              exact hB v
        · simp only [command.on, hz, if_false, add_zero] at hA
          refine Good.congr hg ?_ ?_ ?_ ?_ ?_
          · simp only [Relay.E, setPeer_peers]; omega
          · simp only [Relay.Qq, Relay.Qt, setPeer_targets, setPeer_targetChan]
          · simp only [Relay.A, setPeer_peers]; omega
          · simp only [Relay.P, setPeer_peers]; omega
          · intro v
            simp only [Relay.B, setPeer_peers]
            exact hB v
      · simp at h
    | _ => simp [peerListener] at h
  | reply c out =>
    cases a with
    | reply ok =>
      simp only [peerListener, Option.some.injEq] at h
      subst h
      refine inv_peer_move s _ i _ (if ok then .closing c else .done) hinv hpc rfl rfl rfl rfl
        rfl ?_ ?_ ?_ ?_ <;> intros <;>
        cases ok <;> simp [PeerPC.enq, PeerPC.awt, PeerPC.rep, PeerPC.bad]
    | _ => simp [peerListener] at h
  | closing c =>
    cases a with
    | close =>
      simp only [peerListener, Option.some.injEq] at h
      subst h
      have hpos : 0 < s.P c.Respond := by
        have := le_sum_map (PeerPC.rep c.Respond) s.peers i _ hpc
        simp only [PeerPC.rep, on_self] at this
        exact this
      obtain ⟨c0, v, h1, h2, -⟩ := Good.sent_of_rep (hinv.good c.Respond) hpos
      obtain ⟨hch, hpan⟩ := close_open s Closer.peer c.Respond c0 h1
        (closed_false_of_ops_send c0 v h2)
      refine ⟨by simp only [setPeer_panicked, hpan]; exact hinv.alive,
        by simp only [setPeer_targetChan, close_targetChan]; exact hinv.cap, fun ch => ?_⟩
      have hE := sum_map_set (PeerPC.enq ch) s.peers i _ .receive hpc
      have hA := sum_map_set (PeerPC.awt ch) s.peers i _ .receive hpc
      have hP := sum_map_set (PeerPC.rep ch) s.peers i _ .receive hpc
      have hB := fun v => sum_map_set (PeerPC.bad ch v) s.peers i _ .receive hpc
      simp only [PeerPC.enq, PeerPC.awt, PeerPC.rep, PeerPC.bad, command.on, add_zero]
        at hE hA hP hB
      apply good_close_peer s _ c.Respond ch _ _ _ _ _ c0 h1 (by simp only [setPeer_chans, hch])
      refine Good.congr (hinv.good ch) ?_ ?_ ?_ ?_ ?_
      · simp only [Relay.E, setPeer_peers, close_peers]; omega
      · simp only [Relay.Qq, Relay.Qt, setPeer_targets, setPeer_targetChan, close_targets,
          close_targetChan]
      · simp only [Relay.A, setPeer_peers, close_peers]; omega
      · simp only [Relay.P, setPeer_peers, close_peers]; omega
      · intro v
        simp only [Relay.B, setPeer_peers, close_peers]
        exact hB v
    | _ => simp [peerListener] at h
  | done => cases a <;> simp [peerListener] at h

/-- The log of the calls of `sch.Send` plays no part in the invariant. -/
theorem inv_wire (s : Relay) (w : List Sent) (hinv : Inv s) : Inv { s with wire := w } :=
  ⟨hinv.alive, hinv.cap, hinv.good⟩

/-- A target worker that closes the reply channel of its command and returns keeps the
invariant. -/
theorem inv_target_close (s : Relay) (j : Nat) (pc : TargetPC) (c : command) (hinv : Inv s)
    (hpc : s.targets[j]? = some pc) (hh : ∀ ch, pc.held ch = c.on ch) :
    Inv ((s.close Closer.target c.Respond).setTarget j .done) := by
  have hpos : 0 < s.E c.Respond + (s.Qq c.Respond + s.Qt c.Respond) := by
    have := le_sum_map (TargetPC.held c.Respond) s.targets j _ hpc
    rw [hh, on_self] at this
    unfold Relay.Qt
    omega
  obtain ⟨c0, h1, h2, -⟩ := Good.fresh_of_held (hinv.good c.Respond) hpos
  obtain ⟨hch, hpan⟩ := close_open s Closer.target c.Respond c0 h1
    (closed_false_of_ops_nil c0 h2)
  refine ⟨by simp only [setTarget_panicked, hpan]; exact hinv.alive,
    by simp only [setTarget_targetChan, close_targetChan]; exact hinv.cap, fun ch => ?_⟩
  have hT := sum_map_set (TargetPC.held ch) s.targets j _ .done hpc
  rw [hh] at hT
  simp only [TargetPC.held, command.on, add_zero] at hT
  apply good_close_target s _ c.Respond ch _ _ _ _ _ c0 h1
    (by simp only [setTarget_chans, hch])
  refine Good.congr (hinv.good ch) ?_ ?_ ?_ ?_ ?_
  · simp only [Relay.E, setTarget_peers, close_peers]
  · simp only [Relay.Qq, Relay.Qt, setTarget_targets, setTarget_targetChan, close_targets,
      close_targetChan]
    omega
  · simp only [Relay.A, setTarget_peers, close_peers]
  · simp only [Relay.P, setTarget_peers, close_peers]
  · intro v
    simp only [Relay.B, setTarget_peers, close_peers]

/-- The steps of `targetListener` keep the invariant. -/
theorem inv_target (s s1 : Relay) (j : Nat) (pc : TargetPC) (a : TargetAct) (hinv : Inv s)
    (hpc : s.targets[j]? = some pc) (h : targetListener s j pc a = some s1) : Inv s1 := by
  cases pc with
  | listen =>
    cases a with
    | listen ok =>
      simp only [targetListener, Option.some.injEq] at h
      subst h
      refine inv_target_move s _ j _ (if ok then .dequeue else .done) hinv hpc rfl rfl rfl rfl
        rfl ?_
      intro ch
      cases ok <;> simp [TargetPC.held]
    | _ => simp [targetListener] at h
  | dequeue =>
    cases a with
    | dequeue =>
      simp only [targetListener] at h
      split at h
      · simp at h
      · rename_i c rest hq
        simp only [Option.some.injEq] at h
        subst h
        have hcap := hinv.cap
        refine ⟨hinv.alive, ?_, fun ch => ?_⟩
        · simp only [setTarget_targetChan]
          rw [hq] at hcap
          simp only [List.length_cons] at hcap
          omega
        · have hT := sum_map_set (TargetPC.held ch) s.targets j _ (.send c) hpc
          simp only [TargetPC.held, add_zero] at hT
          refine Good.congr (hinv.good ch) ?_ ?_ ?_ ?_ ?_
          · simp only [Relay.E, setTarget_peers]
          · simp only [Relay.Qq, Relay.Qt, setTarget_targets, setTarget_targetChan, hq,
              List.map_cons, List.sum_cons]
            omega
          · simp only [Relay.A, setTarget_peers]
          · simp only [Relay.P, setTarget_peers]
          · intro v
            simp only [Relay.B, setTarget_peers]
    | _ => simp [targetListener] at h
  | send c =>
    cases a with
    | send ok =>
      cases ok with
      | true =>
        simp only [targetListener, if_true, Option.some.injEq] at h
        subst h
        exact inv_target_move s _ j _ (.receive c) hinv hpc rfl rfl rfl rfl rfl
          (fun ch => by simp [TargetPC.held])
      | false =>
        simp only [targetListener, Bool.false_eq_true, if_false, Option.some.injEq] at h
        subst h
        exact inv_target_close _ j _ c (inv_wire s _ hinv) hpc
          (fun ch => by simp [TargetPC.held])
    | _ => simp [targetListener] at h
  | receive c =>
    cases a with
    | receive m =>
      cases m with
      | none =>
        simp only [targetListener, Option.some.injEq] at h
        subst h
        exact inv_target_close s j _ c hinv hpc (fun ch => by simp [TargetPC.held])
      | some m =>
        simp only [targetListener] at h
        split at h
        · simp only [Option.some.injEq] at h
          subst h
          exact inv_target_close s j _ c hinv hpc (fun ch => by simp [TargetPC.held])
        · simp only [Option.some.injEq] at h
          subst h
          exact inv_target_move s _ j _ (.receive c) hinv hpc rfl rfl rfl rfl rfl
            (fun ch => by simp [TargetPC.held])
        · simp only [Option.some.injEq] at h
          subst h
          exact inv_target_move s _ j _ (.respond c m.Contents) hinv hpc rfl rfl rfl rfl rfl
            (fun ch => by simp [TargetPC.held])
    | _ => simp [targetListener] at h
  | respond c v =>
    cases a with
    | respondClosed =>
      exfalso
      simp only [targetListener] at h
      split at h
      · rename_i hcl
        have hpos : 0 < s.E c.Respond + (s.Qq c.Respond + s.Qt c.Respond) := by
          have := le_sum_map (TargetPC.held c.Respond) s.targets j _ hpc
          simp only [TargetPC.held, on_self] at this
          unfold Relay.Qt
          omega
        obtain ⟨c0, h1, h2, -⟩ := Good.fresh_of_held (hinv.good c.Respond) hpos
        unfold Relay.isClosed at hcl
        rw [h1] at hcl
        simp only [closed_false_of_ops_nil c0 h2] at hcl
        exact absurd hcl (by decide)
      · simp at h
    | _ => simp [targetListener] at h
  | done => cases a <;> simp [targetListener] at h

/-- The accept loop keeps the invariant. -/
theorem inv_main (s : Relay) (lead : Option Nat) (hinv : Inv s) : Inv (main s lead) := by
  unfold main
  split
  · exact hinv
  · split
    · refine ⟨hinv.alive, hinv.cap, fun ch => ?_⟩
      refine Good.congr (hinv.good ch) rfl ?_ rfl rfl (fun _ => rfl)
      simp [Relay.Qq, Relay.Qt, TargetPC.held]
    · refine ⟨hinv.alive, hinv.cap, fun ch => ?_⟩
      refine Good.congr (hinv.good ch) ?_ rfl ?_ ?_ ?_
      · simp [Relay.E, PeerPC.enq]
      · simp [Relay.A, PeerPC.awt]
      · simp [Relay.P, PeerPC.rep]
      · intro v
        simp [Relay.B, PeerPC.bad]
    · exact hinv

/-- The rendezvous on a reply channel keeps the invariant. -/
theorem inv_handoff (s : Relay) (j i : Nat) (c c1 : command) (v : Bytes) (hinv : Inv s)
    (hj : s.targets[j]? = some (.respond c v)) (hi : s.peers[i]? = some (.await c1))
    (hcc : c.Respond = c1.Respond) :
    Inv (((s.sendOn c.Respond v).setTarget j .dequeue).setPeer i (.reply c1 v)) := by
  have hpos : 0 < s.E c.Respond + (s.Qq c.Respond + s.Qt c.Respond) := by
    have := le_sum_map (TargetPC.held c.Respond) s.targets j _ hj
    simp only [TargetPC.held, on_self] at this
    unfold Relay.Qt
    omega
  obtain ⟨c0, h1, h2, -⟩ := Good.fresh_of_held (hinv.good c.Respond) hpos
  have hch := sendOn_chans s c.Respond v c0 h1
  refine ⟨by simp only [setPeer_panicked, setTarget_panicked, sendOn_panicked]; exact hinv.alive,
    by simp only [setPeer_targetChan, setTarget_targetChan, sendOn_targetChan]; exact hinv.cap,
    fun ch => ?_⟩
  have hT := sum_map_set (TargetPC.held ch) s.targets j _ .dequeue hj
  have hE := sum_map_set (PeerPC.enq ch) s.peers i _ (.reply c1 v) hi
  have hA := sum_map_set (PeerPC.awt ch) s.peers i _ (.reply c1 v) hi
  have hP := sum_map_set (PeerPC.rep ch) s.peers i _ (.reply c1 v) hi
  have hB := fun w => sum_map_set (PeerPC.bad ch w) s.peers i _ (.reply c1 v) hi
  simp only [PeerPC.enq, PeerPC.awt, PeerPC.rep, PeerPC.bad, TargetPC.held, command.on,
    add_zero, ← hcc] at hT hE hA hP hB
  have hg := good_handoff s (((s.sendOn c.Respond v).setTarget j .dequeue).setPeer i
    (.reply c1 v)) c.Respond ch v
    ((((s.sendOn c.Respond v).setTarget j .dequeue).setPeer i (.reply c1 v)).E ch)
    ((((s.sendOn c.Respond v).setTarget j .dequeue).setPeer i (.reply c1 v)).Qq ch +
      (((s.sendOn c.Respond v).setTarget j .dequeue).setPeer i (.reply c1 v)).Qt ch)
    ((((s.sendOn c.Respond v).setTarget j .dequeue).setPeer i (.reply c1 v)).A ch)
    (s.P ch) (s.B ch)
    ((((s.sendOn c.Respond v).setTarget j .dequeue).setPeer i (.reply c1 v)).B ch)
    c0 h1 (by simp only [setPeer_chans, setTarget_chans, hch])
    (fun w => B_le_P s ch w)
    (by
      intro w
      have := hB w
      simp only [Relay.B, setPeer_peers, setTarget_peers, sendOn_peers]
      by_cases hvw : v = w
      · simp only [hvw, if_true, add_zero] at this ⊢
        exact this
      · simp only [hvw, if_false] at this ⊢
        exact this)
    (by
      refine Good.congr (hinv.good ch) ?_ ?_ ?_ rfl (fun _ => rfl)
      · simp only [Relay.E, setPeer_peers, setTarget_peers, sendOn_peers]; omega
      · simp only [Relay.Qq, Relay.Qt, setPeer_targets, setTarget_targets, sendOn_targets,
          setPeer_targetChan, setTarget_targetChan, sendOn_targetChan]
        omega
      · simp only [Relay.A, setPeer_peers, setTarget_peers, sendOn_peers]; omega)
  refine Good.congr hg rfl rfl rfl ?_ (fun _ => rfl)
  simp only [Relay.P, setPeer_peers, setTarget_peers, sendOn_peers]
  omega

/-- Every transition of the relay keeps the invariant. -/
theorem inv_step (s s1 : Relay) (e : Event) (hinv : Inv s) (h : step s e = some s1) :
    Inv s1 := by
  unfold step at h
  rw [hinv.alive] at h
  simp only [Bool.false_eq_true, if_false] at h
  cases e with
  | accept lead =>
    simp only [Option.some.injEq] at h
    subst h
    exact inv_main s lead hinv
  | peer i a =>
    simp only at h
    cases hpc : s.peers[i]? with
    | none => simp [hpc] at h
    | some pc =>
      simp only [hpc] at h
      exact inv_peer s s1 i pc a hinv hpc h
  | target j a =>
    simp only at h
    cases hpc : s.targets[j]? with
    | none => simp [hpc] at h
    | some pc =>
      simp only [hpc] at h
      exact inv_target s s1 j pc a hinv hpc h
  | handoff j i =>
    simp only at h
    split at h
    · rename_i c v c1 hj hi
      split at h
      · rename_i hcond
        simp only [Option.some.injEq] at h
        subst h
        exact inv_handoff s j i c c1 v hinv hj hi hcond.1
      · simp at h
    · simp at h

theorem inv_init : Inv init := by
  refine ⟨rfl, by decide, fun ch => ?_⟩
  simp [init, Good, Relay.E, Relay.Qq, Relay.Qt, Relay.A, Relay.P]

theorem inv_run (es : List Event) (s s1 : Relay) (hinv : Inv s) (h : run s es = some s1) :
    Inv s1 := by
  induction es generalizing s with
  | nil =>
    simp only [run, Option.some.injEq] at h
    subst h
    exact hinv
  | cons e es ih =>
    simp only [run] at h
    cases hs : step s e with
    | none => simp [hs] at h
    | some s2 =>
      simp only [hs, Option.some_bind] at h
      exact ih s2 (inv_step s s2 e hinv hs) h

/-- Every reachable state of the relay satisfies the invariant. -/
theorem inv_reachable (s : Relay) (h : Reachable s) : Inv s := by
  obtain ⟨es, hes⟩ := h
  exact inv_run es init s inv_init hes

/-! ### The ownership of a reply channel is kept by every transition -/

theorem getElem?_set_cases {α : Type} (l : List α) (i k : Nat) (y z : α)
    (h : (l.set i y)[k]? = some z) : l[k]? = some z ∨ (k = i ∧ z = y) := by
  rw [List.getElem?_set] at h
  by_cases hik : i = k
  · subst hik
    simp only [if_true] at h
    split at h
    · simp only [Option.some.injEq] at h
      exact Or.inr ⟨rfl, h.symm⟩
    · simp at h
  · simp only [hik, if_false] at h
    exact Or.inl h

theorem getElem?_append_singleton_cases {α : Type} (l : List α) (k : Nat) (y z : α)
    (h : (l ++ [y])[k]? = some z) : l[k]? = some z ∨ z = y := by
  by_cases hk : k < l.length
  · rw [List.getElem?_append_left hk] at h
    exact Or.inl h
  · rw [List.getElem?_append_right (by omega)] at h
    right
    cases hkl : k - l.length with
    | zero =>
      rw [hkl] at h
      simp at h
      exact h.symm
    | succ n =>
      rw [hkl] at h
      simp at h

theorem Owned.of_step {i : Nat} {C : command} {s s1 : Relay} (hk : Owned i C s)
    (hc : s.chans.length ≤ s1.chans.length)
    (hp : ∀ (k : Nat) (pc : PeerPC), s1.peers[k]? = some pc → s.peers[k]? = some pc ∨
      ∀ x, pc.cmd = some x → x.Respond = C.Respond → k = i ∧ x = C)
    (hq : ∀ x ∈ s1.targetChan, x ∈ s.targetChan ∨ (x.Respond = C.Respond → x = C))
    (ht : ∀ (k : Nat) (pc : TargetPC), s1.targets[k]? = some pc → s.targets[k]? = some pc ∨
      ∀ x, pc.cmd = some x → x.Respond = C.Respond → x = C) : Owned i C s1 := by
  refine ⟨Nat.lt_of_lt_of_le hk.alloc hc, ?_, ?_, ?_⟩
  · intro k pc x h1 h2 h3
    rcases hp k pc h1 with h | h
    · exact hk.peers k pc x h h2 h3
    · exact h x h2 h3
  · intro x hx h3
    rcases hq x hx with h | h
    · exact hk.queue x h h3
    · exact h h3
  · intro k pc x h1 h2 h3
    rcases ht k pc h1 with h | h
    · exact hk.targets k pc x h h2 h3
    · exact h x h2 h3

theorem close_length (s : Relay) (w : Closer) (ch : Nat) :
    (s.close w ch).chans.length = s.chans.length := by
  unfold Relay.close
  split
  · split
    · rfl
    · simp
  · rfl

theorem sendOn_length (s : Relay) (ch : Nat) (v : Bytes) :
    (s.sendOn ch v).chans.length = s.chans.length := by
  unfold Relay.sendOn
  split
  · simp
  · rfl

/-- A peer worker moves to a program point whose command it referred to before. -/
theorem Owned.peer_move {i : Nat} {C : command} {s s1 : Relay} (hk : Owned i C s)
    (k : Nat) (pc pc1 : PeerPC) (hpc : s.peers[k]? = some pc)
    (hp : s1.peers = s.peers.set k pc1) (ht : s1.targets = s.targets)
    (hq : s1.targetChan = s.targetChan) (hc : s.chans.length ≤ s1.chans.length)
    (hcmd : pc1.cmd = none ∨ pc1.cmd = pc.cmd) : Owned i C s1 := by
  refine hk.of_step hc ?_ ?_ ?_
  · intro k1 pc2 h
    rw [hp] at h
    rcases getElem?_set_cases _ _ _ _ _ h with h | ⟨h1, h2⟩
    · exact Or.inl h
    · right
      subst h1 h2
      intro x hx hr
      rcases hcmd with hcmd | hcmd
      · rw [hcmd] at hx
        cases hx
      · rw [hcmd] at hx
        exact hk.peers k1 pc x hpc hx hr
  · intro x hx
    rw [hq] at hx
    exact Or.inl hx
  · intro k1 pc2 h
    rw [ht] at h
    exact Or.inl h

/-- A target worker moves to a program point whose command it held before. -/
theorem Owned.target_move {i : Nat} {C : command} {s s1 : Relay} (hk : Owned i C s)
    (k : Nat) (pc pc1 : TargetPC) (hpc : s.targets[k]? = some pc)
    (hp : s1.peers = s.peers) (ht : s1.targets = s.targets.set k pc1)
    (hq : s1.targetChan = s.targetChan) (hc : s.chans.length ≤ s1.chans.length)
    (hcmd : pc1.cmd = none ∨ pc1.cmd = pc.cmd) : Owned i C s1 := by
  refine hk.of_step hc ?_ ?_ ?_
  · intro k1 pc2 h
    rw [hp] at h
    exact Or.inl h
  · intro x hx
    rw [hq] at hx
    exact Or.inl hx
  · intro k1 pc2 h
    rw [ht] at h
    rcases getElem?_set_cases _ _ _ _ _ h with h | ⟨h1, h2⟩
    · exact Or.inl h
    · right
      subst h1 h2
      intro x hx hr
      rcases hcmd with hcmd | hcmd
      · rw [hcmd] at hx
        cases hx
      · rw [hcmd] at hx
        exact hk.targets k1 pc x hpc hx hr

theorem owned_peer {i : Nat} {C : command} (s s1 : Relay) (k : Nat) (pc : PeerPC)
    (a : PeerAct) (hk : Owned i C s) (hpc : s.peers[k]? = some pc)
    (h : peerListener s k pc a = some s1) : Owned i C s1 := by
  cases pc with
  | listen =>
    cases a with
    | listen ok =>
      simp only [peerListener, Option.some.injEq] at h
      subst h
      exact hk.peer_move k _ (if ok then .receive else .done) hpc rfl rfl rfl (Nat.le_refl _)
        (by cases ok <;> simp [PeerPC.cmd])
    | _ => simp [peerListener] at h
  | receive =>
    cases a with
    | receive m =>
      cases m with
      | none =>
        simp only [peerListener, Option.some.injEq] at h
        subst h
        exact hk.peer_move k _ .done hpc rfl rfl rfl (Nat.le_refl _) (Or.inl rfl)
      | some m =>
        simp only [peerListener] at h
        split at h
        · simp only [Option.some.injEq] at h
          subst h
          exact hk.peer_move k _ .done hpc rfl rfl rfl (Nat.le_refl _) (Or.inl rfl)
        · simp only [Option.some.injEq] at h
          subst h
          exact hk.peer_move k _ .receive hpc rfl rfl rfl (Nat.le_refl _) (Or.inl rfl)
        · simp only [Option.some.injEq] at h
          subst h
          refine hk.of_step (by simp) ?_ (fun x hx => Or.inl hx) (fun k1 pc2 h => Or.inl h)
          intro k1 pc2 h
          simp only [setPeer_peers] at h
          rcases getElem?_set_cases _ _ _ _ _ h with h | ⟨h1, h2⟩
          · exact Or.inl h
          · right
            subst h2
            intro x hx hr
            simp only [PeerPC.cmd, Option.some.injEq] at hx
            subst hx
            have := hk.alloc
            simp only at hr
            omega
    | _ => simp [peerListener] at h
  | enqueue c =>
    cases a with
    | enqueue =>
      simp only [peerListener] at h
      split at h
      · simp only [Option.some.injEq] at h
        subst h
        refine hk.of_step (Nat.le_refl _) ?_ ?_ (fun k1 pc2 h => Or.inl h)
        · intro k1 pc2 h
          simp only [setPeer_peers] at h
          rcases getElem?_set_cases _ _ _ _ _ h with h | ⟨h1, h2⟩
          · exact Or.inl h
          · right
            subst h1 h2
            intro x hx hr
            exact hk.peers k1 _ x hpc hx hr
        · intro x hx
          simp only [setPeer_targetChan, List.mem_append, List.mem_singleton] at hx
          rcases hx with hx | hx
          · exact Or.inl hx
          · right
            intro hr
            subst hx
            exact (hk.peers k _ x hpc rfl hr).2
      · simp at h
    | _ => simp [peerListener] at h
  | await c =>
    cases a with
    | awaitClosed =>
      simp only [peerListener] at h
      split at h
      · simp only [Option.some.injEq] at h
        subst h
        exact hk.peer_move k _ .done hpc rfl rfl rfl (Nat.le_refl _) (Or.inl rfl)
      · simp at h
    | _ => simp [peerListener] at h
  | reply c out =>
    cases a with
    | reply ok =>
      simp only [peerListener, Option.some.injEq] at h
      subst h
      exact hk.peer_move k _ (if ok then .closing c else .done) hpc rfl rfl rfl (Nat.le_refl _)
        (by cases ok <;> simp [PeerPC.cmd])
    | _ => simp [peerListener] at h
  | closing c =>
    cases a with
    | close =>
      simp only [peerListener, Option.some.injEq] at h
      subst h
      exact hk.peer_move k _ .receive hpc (by simp) (by simp) (by simp)
        (by simp [close_length]) (Or.inl rfl)
    | _ => simp [peerListener] at h
  | done => cases a <;> simp [peerListener] at h

theorem owned_target {i : Nat} {C : command} (s s1 : Relay) (k : Nat) (pc : TargetPC)
    (a : TargetAct) (hk : Owned i C s) (hpc : s.targets[k]? = some pc)
    (h : targetListener s k pc a = some s1) : Owned i C s1 := by
  cases pc with
  | listen =>
    cases a with
    | listen ok =>
      simp only [targetListener, Option.some.injEq] at h
      subst h
      exact hk.target_move k _ (if ok then .dequeue else .done) hpc rfl rfl rfl (Nat.le_refl _)
        (by cases ok <;> simp [TargetPC.cmd])
    | _ => simp [targetListener] at h
  | dequeue =>
    cases a with
    | dequeue =>
      simp only [targetListener] at h
      split at h
      · simp at h
      · rename_i c rest hq
        simp only [Option.some.injEq] at h
        subst h
        refine hk.of_step (Nat.le_refl _) (fun k1 pc2 h => Or.inl h) ?_ ?_
        · intro x hx
          simp only [setTarget_targetChan] at hx
          left
          rw [hq]
          exact List.mem_cons_of_mem _ hx
        · intro k1 pc2 h
          simp only [setTarget_targets] at h
          rcases getElem?_set_cases _ _ _ _ _ h with h | ⟨h1, h2⟩
          · exact Or.inl h
          · right
            subst h2
            intro x hx hr
            simp only [TargetPC.cmd, Option.some.injEq] at hx
            rw [← hx] at hr ⊢
            exact hk.queue c (by rw [hq]; exact List.mem_cons_self _ _) hr
    | _ => simp [targetListener] at h
  | send c =>
    cases a with
    | send ok =>
      cases ok with
      | true =>
        simp only [targetListener, if_true, Option.some.injEq] at h
        subst h
        exact hk.target_move k _ (.receive c) hpc rfl rfl rfl (Nat.le_refl _) (Or.inr rfl)
      | false =>
        simp only [targetListener, Bool.false_eq_true, if_false, Option.some.injEq] at h
        subst h
        exact hk.target_move k _ .done hpc (by simp) (by simp) (by simp)
          (by simp [close_length]) (Or.inl rfl)
    | _ => simp [targetListener] at h
  | receive c =>
    cases a with
    | receive m =>
      cases m with
      | none =>
        simp only [targetListener, Option.some.injEq] at h
        subst h
        exact hk.target_move k _ .done hpc (by simp) (by simp) (by simp)
          (by simp [close_length]) (Or.inl rfl)
      | some m =>
        simp only [targetListener] at h
        split at h
        · simp only [Option.some.injEq] at h
          subst h
          exact hk.target_move k _ .done hpc (by simp) (by simp) (by simp)
            (by simp [close_length]) (Or.inl rfl)
        · simp only [Option.some.injEq] at h
          subst h
          exact hk.target_move k _ (.receive c) hpc rfl rfl rfl (Nat.le_refl _) (Or.inr rfl)
        · simp only [Option.some.injEq] at h
          subst h
          exact hk.target_move k _ (.respond c m.Contents) hpc rfl rfl rfl (Nat.le_refl _)
            (Or.inr rfl)
    | _ => simp [targetListener] at h
  | respond c v =>
    cases a with
    | respondClosed =>
      simp only [targetListener] at h
      split at h
      · simp only [Option.some.injEq] at h
        subst h
        exact ⟨hk.alloc, hk.peers, hk.queue, hk.targets⟩
      · simp at h
    | _ => simp [targetListener] at h
  | done => cases a <;> simp [targetListener] at h

theorem owned_main {i : Nat} {C : command} (s : Relay) (lead : Option Nat)
    (hk : Owned i C s) : Owned i C (main s lead) := by
  unfold main
  split
  · exact hk
  · split
    · refine hk.of_step (Nat.le_refl _) (fun k1 pc2 h => Or.inl h) (fun x hx => Or.inl hx) ?_
      intro k1 pc2 h
      rcases getElem?_append_singleton_cases _ _ _ _ h with h | h
      · exact Or.inl h
      · right
        subst h
        intro x hx
        simp [TargetPC.cmd] at hx
    · refine hk.of_step (Nat.le_refl _) ?_ (fun x hx => Or.inl hx) (fun k1 pc2 h => Or.inl h)
      intro k1 pc2 h
      rcases getElem?_append_singleton_cases _ _ _ _ h with h | h
      · exact Or.inl h
      · right
        subst h
        intro x hx
        simp [PeerPC.cmd] at hx
    · exact hk

/-- Every transition keeps the ownership of a reply channel. -/
theorem owned_step {i : Nat} {C : command} (s s1 : Relay) (e : Event) (hk : Owned i C s)
    (h : step s e = some s1) : Owned i C s1 := by
  unfold step at h
  split at h
  · simp at h
  · cases e with
    | accept lead =>
      simp only [Option.some.injEq] at h
      subst h
      exact owned_main s lead hk
    | peer k a =>
      simp only at h
      cases hpc : s.peers[k]? with
      | none => simp [hpc] at h
      | some pc =>
        simp only [hpc] at h
        exact owned_peer s s1 k pc a hk hpc h
    | target j a =>
      simp only at h
      cases hpc : s.targets[j]? with
      | none => simp [hpc] at h
      | some pc =>
        simp only [hpc] at h
        exact owned_target s s1 j pc a hk hpc h
    | handoff j k =>
      simp only at h
      split at h
      · rename_i c v c1 hj hi
        split at h
        · simp only [Option.some.injEq] at h
          subst h
          have h1 : Owned i C ((s.sendOn c.Respond v).setTarget j .dequeue) :=
            hk.target_move j _ .dequeue hj (by simp) (by simp) (by simp)
              (by simp [sendOn_length]) (Or.inl rfl)
          exact h1.peer_move k (.await c1) (.reply c1 v) (by simpa using hi) rfl rfl rfl
            (Nat.le_refl _) (Or.inr rfl)
        · simp at h
      · simp at h

theorem owned_run {i : Nat} {C : command} (es : List Event) (s s1 : Relay)
    (hk : Owned i C s) (h : run s es = some s1) : Owned i C s1 := by
  induction es generalizing s with
  | nil =>
    simp only [run, Option.some.injEq] at h
    subst h
    exact hk
  | cons e es ih =>
    simp only [run] at h
    cases hs : step s e with
    | none => simp [hs] at h
    | some s2 =>
      simp only [hs, Option.some_bind] at h
      exact ih s2 (owned_step s s2 e hk hs) h

/-! ### Consequences of the invariant -/

/-- The reply channel of a command held by a target worker is fresh: nothing was sent on it,
it is open, and exactly one peer worker waits on it. -/
theorem held_fresh (s : Relay) (hinv : Inv s) (j : Nat) (pc : TargetPC) (c : command)
    (hj : s.targets[j]? = some pc) (hc : pc.cmd = some c) :
    s.chans[c.Respond]? = some (Chan.mk []) ∧ s.isClosed c.Respond = false ∧
      s.A c.Respond = 1 := by
  have hpos : 0 < s.E c.Respond + (s.Qq c.Respond + s.Qt c.Respond) := by
    have := le_sum_map (TargetPC.held c.Respond) s.targets j _ hj
    have h1 : TargetPC.held c.Respond pc = 1 := by
      cases pc <;> simp [TargetPC.cmd] at hc <;> subst hc <;> simp [TargetPC.held, on_self]
    unfold Relay.Qt
    omega
  have hq : 0 < s.Qt c.Respond := by
    have := le_sum_map (TargetPC.held c.Respond) s.targets j _ hj
    have h1 : TargetPC.held c.Respond pc = 1 := by
      cases pc <;> simp [TargetPC.cmd] at hc <;> subst hc <;> simp [TargetPC.held, on_self]
    unfold Relay.Qt
    omega
  obtain ⟨c0, h1, h2, h3, h4, -⟩ := Good.fresh_of_held (hinv.good c.Respond) hpos
  have hc0 : c0 = Chan.mk [] := by
    cases c0
    simp only at h2
    rw [h2]
  subst hc0
  refine ⟨h1, ?_, by omega⟩
  unfold Relay.isClosed
  rw [h1]
  rfl

theorem mem_le_sum_map {α : Type} (f : α → Nat) (l : List α) (x : α) (h : x ∈ l) :
    f x ≤ (l.map f).sum := by
  induction l with
  | nil => simp at h
  | cons a t ih =>
    simp only [List.map_cons, List.sum_cons]
    rcases List.mem_cons.1 h with h | h
    · subst h
      omega
    · have := ih h
      omega

/-- The reply channel of a queued command is fresh, and one peer worker waits on it. -/
theorem queued_fresh (s : Relay) (hinv : Inv s) (c : command) (hc : c ∈ s.targetChan) :
    s.chans[c.Respond]? = some (Chan.mk []) ∧ s.isClosed c.Respond = false ∧
      s.A c.Respond = 1 := by
  have hq : 0 < s.Qq c.Respond := by
    have := mem_le_sum_map (command.on c.Respond) s.targetChan c hc
    rw [on_self] at this
    unfold Relay.Qq
    omega
  obtain ⟨c0, h1, h2, h3, h4, -⟩ := Good.fresh_of_held (hinv.good c.Respond)
    (show 0 < s.E c.Respond + (s.Qq c.Respond + s.Qt c.Respond) by omega)
  have hc0 : c0 = Chan.mk [] := by
    cases c0
    simp only at h2
    rw [h2]
  subst hc0
  refine ⟨h1, ?_, by omega⟩
  unfold Relay.isClosed
  rw [h1]
  rfl

/-- A waiting peer worker exists when the count of waiting peer workers is positive. -/
theorem exists_await (s : Relay) (ch : Nat) (h : 0 < s.A ch) :
    ∃ (i : Nat) (c : command), s.peers[i]? = some (.await c) ∧ c.Respond = ch := by
  obtain ⟨i, pc, hpc, hpos⟩ := exists_of_sum_map_pos (PeerPC.awt ch) s.peers h
  cases pc with
  | await c =>
    refine ⟨i, c, hpc, ?_⟩
    simp only [PeerPC.awt, command.on] at hpos
    by_contra hne
    simp [hne] at hpos
  | _ => simp [PeerPC.awt] at hpos

/-- The reply channel of a peer worker that received its reply carried exactly that reply
and is still open. -/
theorem reply_sent (s : Relay) (hinv : Inv s) (i : Nat) (c : command) (out : Bytes)
    (hi : s.peers[i]? = some (.reply c out)) :
    s.chans[c.Respond]? = some (Chan.mk [ChanOp.send out]) := by
  have hpos : 0 < s.P c.Respond := by
    have := le_sum_map (PeerPC.rep c.Respond) s.peers i _ hi
    simp only [PeerPC.rep, on_self] at this
    exact this
  obtain ⟨c0, v, h1, h2, -, -, -, -, h7⟩ := Good.sent_of_rep (hinv.good c.Respond) hpos
  have hb := le_sum_map (PeerPC.bad c.Respond v) s.peers i _ hi
  have hv : out = v := by
    by_contra hne
    simp only [PeerPC.bad, hne, if_false, on_self] at hb
    unfold Relay.B at h7
    omega
  subst hv
  cases c0
  simp only at h2
  rw [h1, h2]

/-- The reply channel that a peer worker is about to close carried a value and is open. -/
theorem closing_open (s : Relay) (hinv : Inv s) (i : Nat) (c : command)
    (hi : s.peers[i]? = some (.closing c)) :
    (∃ v, s.chans[c.Respond]? = some (Chan.mk [ChanOp.send v])) ∧
      s.isClosed c.Respond = false := by
  have hpos : 0 < s.P c.Respond := by
    have := le_sum_map (PeerPC.rep c.Respond) s.peers i _ hi
    simp only [PeerPC.rep, on_self] at this
    exact this
  obtain ⟨c0, v, h1, h2, -⟩ := Good.sent_of_rep (hinv.good c.Respond) hpos
  cases c0
  simp only at h2
  subst h2
  refine ⟨⟨v, h1⟩, ?_⟩
  unfold Relay.isClosed
  rw [h1]
  rfl

/-- Before a peer worker makes a reply channel, nothing refers to the index it will get. -/
theorem owned_create (s : Relay) (hinv : Inv s) (i : Nat) (c : Bytes) :
    Owned i { CmdLine := c, Respond := s.chans.length }
      ({ s with chans := s.chans ++ [Chan.mk []] }.setPeer i
        (.enqueue { CmdLine := c, Respond := s.chans.length })) := by
  have hg := hinv.good s.chans.length
  have hn : s.chans[s.chans.length]? = none := List.getElem?_eq_none (Nat.le_refl _)
  rw [hn] at hg
  simp only [Good] at hg
  obtain ⟨hE, hQ, hA, hP⟩ := hg
  refine ⟨by simp, ?_, ?_, ?_⟩
  · intro k pc x hk hx hr
    simp only [setPeer_peers] at hk
    rcases getElem?_set_cases _ _ _ _ _ hk with hk | ⟨h1, h2⟩
    · exfalso
      have h1 := le_sum_map (PeerPC.enq s.chans.length) s.peers k _ hk
      have h2 := le_sum_map (PeerPC.awt s.chans.length) s.peers k _ hk
      have h3 := le_sum_map (PeerPC.rep s.chans.length) s.peers k _ hk
      simp only at hr
      cases pc <;> simp [PeerPC.cmd] at hx <;> subst hx <;>
        simp only [PeerPC.enq, PeerPC.awt, PeerPC.rep, command.on, hr, if_true] at h1 h2 h3 <;>
        simp only [Relay.E, Relay.A, Relay.P] at hE hA hP <;> omega
    · subst h2
      simp only [PeerPC.cmd, Option.some.injEq] at hx
      exact ⟨h1, hx.symm⟩
  · intro x hx hr
    exfalso
    simp only [setPeer_targetChan] at hx
    have h1 := mem_le_sum_map (command.on s.chans.length) s.targetChan x hx
    simp only at hr
    simp only [command.on, hr, if_true] at h1
    simp only [Relay.Qq] at hQ
    omega
  · intro k pc x hk hx hr
    exfalso
    simp only [setPeer_targets] at hk
    have h1 := le_sum_map (TargetPC.held s.chans.length) s.targets k _ hk
    simp only at hr
    cases pc <;> simp [TargetPC.cmd] at hx <;> subst hx <;>
      simp only [TargetPC.held, command.on, hr, if_true] at h1 <;>
      simp only [Relay.Qt] at hQ <;> omega

/-! ### The accept loop -/

/-- C2. The accept loop spawns a target worker exactly for the leading byte `t`, a peer
worker exactly for the leading byte `c`, each at the handshake and with nothing else in the
relay changed, and for any other byte, such as `x`, it leaves the relay as it is: no worker
exists that could start a handshake on that connection. -/
theorem role_classification (s : Relay) (b : Nat) :
    main s (some b) =
      (if b = 't'.toNat then { s with targets := s.targets ++ [TargetPC.listen] }
       else if b = 'c'.toNat then { s with peers := s.peers ++ [PeerPC.listen] }
       else s) ∧
    ((main s (some b)).targets ≠ s.targets ↔ b = 't'.toNat) ∧
    ((main s (some b)).peers ≠ s.peers ↔ b = 'c'.toNat) ∧
    ((main s (some b)).targets = s.targets ++ [TargetPC.listen] ↔ b = 't'.toNat) ∧
    ((main s (some b)).peers = s.peers ++ [PeerPC.listen] ↔ b = 'c'.toNat) ∧
    ((main s (some b)).targets = s.targets ∨
      ((main s (some b)).targets = s.targets ++ [TargetPC.listen] ∧
        (main s (some b)).peers = s.peers)) ∧
    ((main s (some b)).peers = s.peers ∨
      ((main s (some b)).peers = s.peers ++ [PeerPC.listen] ∧
        (main s (some b)).targets = s.targets)) ∧
    ((main s (some b)).targetChan = s.targetChan ∧ (main s (some b)).chans = s.chans ∧
      (main s (some b)).wire = s.wire ∧ (main s (some b)).panicked = s.panicked) ∧
    (dispatch b = Spawn.targetListener ↔ b = 't'.toNat) ∧
    (dispatch b = Spawn.peerListener ↔ b = 'c'.toNat) ∧
    ((b = 't'.toNat ∨ b = 'c'.toNat) ∨ main s (some b) = s) ∧
    main s (some 'x'.toNat) = s ∧
    main s none = s ∧
    (s.panicked = false → step s (.accept (some b)) = some (main s (some b))) := by
  have hx : main s (some 'x'.toNat) = s := rfl
  have hn : main s none = s := rfl
  have hst : s.panicked = false → step s (.accept (some b)) = some (main s (some b)) := by
    intro h
    unfold step
    simp [h]
  refine ⟨?_, ?_, ?_, ?_, ?_, ?_, ?_, ?_, ?_, ?_, ?_, hx, hn, hst⟩ <;>
  · by_cases h1 : b = 116
    · subst h1
      simp [main, dispatch]
    · by_cases h2 : b = 99
      · subst h2
        simp [main, dispatch]
      · simp [main, dispatch, h1, h2]

/-! ### The transitions, rule by rule -/

/-- Every transition computed by `step` is one of the rules of `Step`. -/
theorem step_sound (s s1 : Relay) (e : Event) (h : step s e = some s1) : Step s e s1 := by
  unfold step at h
  split at h
  · simp at h
  · cases e with
    | accept lead =>
      simp only [Option.some.injEq] at h
      subst h
      exact Step.accept s lead
    | peer i a =>
      simp only at h
      cases hpc : s.peers[i]? with
      | none => simp [hpc] at h
      | some pc =>
        simp only [hpc] at h
        cases pc <;> cases a <;> simp only [peerListener] at h <;> try (simp at h; done)
        · simp only [Option.some.injEq] at h
          subst h
          exact Step.peerListen s i _ hpc
        · rename_i m
          cases m with
          | none =>
            simp only [Option.some.injEq] at h
            subst h
            exact Step.peerReceiveFail s i hpc
          | some m =>
            simp only at h
            split at h <;> simp only [Option.some.injEq] at h <;> subst h
            · exact Step.peerShutdown s i m hpc (by assumption)
            · exact Step.peerKex s i m hpc (by assumption)
            · exact Step.peerNormal s i m hpc (by assumption)
        · split at h
          · simp only [Option.some.injEq] at h
            subst h
            exact Step.peerEnqueue s i _ hpc (by assumption)
          · simp at h
        · split at h
          · simp only [Option.some.injEq] at h
            subst h
            exact Step.peerAwaitClosed s i _ hpc (by assumption)
          · simp at h
        · simp only [Option.some.injEq] at h
          subst h
          exact Step.peerReply s i _ _ _ hpc
        · simp only [Option.some.injEq] at h
          subst h
          exact Step.peerClose s i _ hpc
    | target j a =>
      simp only at h
      cases hpc : s.targets[j]? with
      | none => simp [hpc] at h
      | some pc =>
        simp only [hpc] at h
        cases pc <;> cases a <;> simp only [targetListener] at h <;> try (simp at h; done)
        · simp only [Option.some.injEq] at h
          subst h
          exact Step.targetListen s j _ hpc
        · split at h
          · simp at h
          · simp only [Option.some.injEq] at h
            subst h
            exact Step.targetDequeue s j _ _ hpc (by assumption)
        · rename_i c ok
          cases ok with
          | true =>
            simp only [if_true, Option.some.injEq] at h
            subst h
            exact Step.targetSend s j c hpc
          | false =>
            simp only [Bool.false_eq_true, if_false, Option.some.injEq] at h
            subst h
            exact Step.targetSendFail s j c hpc
        · rename_i c m
          cases m with
          | none =>
            simp only [Option.some.injEq] at h
            subst h
            exact Step.targetReceiveFail s j c hpc
          | some m =>
            simp only at h
            split at h <;> simp only [Option.some.injEq] at h <;> subst h
            · exact Step.targetShutdown s j c m hpc (by assumption)
            · exact Step.targetKex s j c m hpc (by assumption)
            · exact Step.targetNormal s j c m hpc (by assumption)
        · split at h
          · simp only [Option.some.injEq] at h
            subst h
            exact Step.targetRespondClosed s j _ _ hpc (by assumption)
          · simp at h
    | handoff j i =>
      simp only at h
      split at h
      · rename_i c v c1 hj hi
        split at h
        · rename_i hcond
          simp only [Option.some.injEq] at h
          subst h
          exact Step.handoff s j i c c1 v hj hi hcond.1 hcond.2
        · simp at h
      · simp at h

theorem run_append (s : Relay) (es fs : List Event) :
    run s (es ++ fs) = (run s es).bind fun s1 => run s1 fs := by
  induction es generalizing s with
  | nil => simp [run]
  | cons e es ih =>
    simp only [List.cons_append, run]
    cases step s e with
    | none => simp
    | some s2 => simp [ih]

theorem reachable_run (s s1 : Relay) (es : List Event) (hs : Reachable s)
    (h : run s es = some s1) : Reachable s1 := by
  obtain ⟨fs, hfs⟩ := hs
  exact ⟨fs ++ es, by rw [run_append, hfs]; exact h⟩

theorem reachable_step (s s1 : Relay) (e : Event) (hs : Reachable s)
    (h : step s e = some s1) : Reachable s1 :=
  reachable_run s s1 [e] hs (by simp [run, h])

/-! ### The command queue -/

/-- How a transition changes the command queue. -/
theorem step_targetChan (s s1 : Relay) (e : Event) (h : step s e = some s1) :
    s1.targetChan = s.targetChan ∨ (∃ c, s1.targetChan = s.targetChan ++ [c]) ∨
      ∃ j c, e = .target j .dequeue ∧ s.targetChan = c :: s1.targetChan := by
  cases step_sound s s1 e h with
  | accept =>
    left
    unfold main
    split
    · rfl
    · split <;> rfl
  | peerEnqueue i c => exact Or.inr (Or.inl ⟨c, rfl⟩)
  | targetDequeue j c rest h hq => exact Or.inr (Or.inr ⟨j, c, rfl, hq⟩)
  | _ => left; simp

/-- C6. The command queue never holds more than 4 commands; an enqueue takes effect only on a
queue of fewer than 4 commands and adds one; on a queue of 4 commands no enqueue is enabled,
and it stays so along any run without a dequeue, since only a dequeue shortens the queue;
after a dequeue a pending enqueue is enabled again. -/
theorem queue_capacity (s : Relay) (hs : Reachable s) :
    s.targetChan.length ≤ 4 ∧
    (∀ i s1, step s (.peer i .enqueue) = some s1 →
      s.targetChan.length < 4 ∧ s1.targetChan.length = s.targetChan.length + 1) ∧
    (s.targetChan.length = 4 → ∀ i, step s (.peer i .enqueue) = none) ∧
    (∀ e s1, step s e = some s1 → s1.targetChan.length < s.targetChan.length →
      ∃ j, e = .target j .dequeue) ∧
    (s.targetChan.length = 4 → ∀ es s1, run s es = some s1 →
      (∀ e ∈ es, ∀ j, e ≠ .target j .dequeue) →
      s1.targetChan.length = 4 ∧ ∀ i, step s1 (.peer i .enqueue) = none) ∧
    (∀ i c j s1, s.peers[i]? = some (.enqueue c) → step s (.target j .dequeue) = some s1 →
      ∃ s2, step s1 (.peer i .enqueue) = some s2 ∧
        s2.targetChan.length = s.targetChan.length) := by
  have hcap : ∀ t, Reachable t → t.targetChan.length ≤ 4 := fun t ht => (inv_reachable t ht).cap
  have hen : ∀ t i t1, step t (.peer i .enqueue) = some t1 →
      t.targetChan.length < 4 ∧ t1.targetChan.length = t.targetChan.length + 1 := by
    intro t i t1 h
    cases step_sound t t1 _ h with
    | peerEnqueue _ c hpc hlt =>
      refine ⟨hlt, ?_⟩
      simp
  have hfull : ∀ t, t.targetChan.length = 4 → ∀ i, step t (.peer i .enqueue) = none := by
    intro t h4 i
    cases hst : step t (.peer i .enqueue) with
    | none => rfl
    | some t1 =>
      have := (hen t i t1 hst).1
      omega
  have hshrink : ∀ t e t1, step t e = some t1 → t1.targetChan.length < t.targetChan.length →
      ∃ j, e = .target j .dequeue := by
    intro t e t1 h hlt
    rcases step_targetChan t t1 e h with h1 | ⟨c, h1⟩ | ⟨j, c, h1, h2⟩
    · rw [h1] at hlt
      omega
    · rw [h1] at hlt
      simp at hlt
    · exact ⟨j, h1⟩
  refine ⟨hcap s hs, hen s, hfull s, hshrink s, ?_, ?_⟩
  · intro h4 es
    induction es generalizing s with
    | nil =>
      intro s1 h _
      simp only [run, Option.some.injEq] at h
      subst h
      exact ⟨h4, hfull s h4⟩
    | cons e es ih =>
      intro s1 h hno
      simp only [run] at h
      cases hst : step s e with
      | none => simp [hst] at h
      | some s2 =>
        simp only [hst, Option.some_bind] at h
        have hs2 := reachable_step s s2 e hs hst
        have h42 : s2.targetChan.length = 4 := by
          have hle := hcap s2 hs2
          rcases step_targetChan s s2 e hst with h1 | ⟨c, h1⟩ | ⟨j, c, h1, h2⟩
          · rw [h1]
            exact h4
          · rw [h1] at hle
            simp at hle
            omega
          · exact absurd h1 (hno e (List.mem_cons_self _ _) j)
        exact ih s2 hs2 h42 s1 h (fun e1 he1 => hno e1 (List.mem_cons_of_mem _ he1))
  · intro i c j s1 hi hst
    have hinv := inv_reachable s hs
    cases step_sound s s1 _ hst with
    | targetDequeue _ c1 rest hj hq =>
      have hlen : s.targetChan.length = rest.length + 1 := by rw [hq]; rfl
      have hle := hcap s hs
      have hrest : rest.length < targetChanCap := by
        unfold targetChanCap
        omega
      have hs2 : step ({ s with targetChan := rest }.setTarget j (.send c1))
          (.peer i .enqueue) = some ({ ({ s with targetChan := rest }.setTarget j
            (.send c1)) with targetChan := rest ++ [c] }.setPeer i (.await c)) := by
        unfold step
        simp only [setTarget_panicked, hinv.alive, Bool.false_eq_true, if_false,
          setTarget_peers, hi, peerListener, setTarget_targetChan, hrest, if_true]
      refine ⟨_, hs2, ?_⟩
      simp only [setPeer_targetChan, List.length_append, List.length_singleton]
      omega

theorem queue_capacity_witness :
    (after fullQueue).targetChan.length = 4 ∧
      step (after fullQueue) (.peer 4 .enqueue) = none :=
  ⟨by decide, (queue_capacity (after fullQueue) ⟨fullQueue, by decide⟩).2.2.1 (by decide) 4⟩

theorem step_target (s : Relay) (j : Nat) (pc : TargetPC) (a : TargetAct)
    (halive : s.panicked = false) (hpc : s.targets[j]? = some pc) :
    step s (.target j a) = targetListener s j pc a := by
  unfold step
  simp only [halive, Bool.false_eq_true, if_false, hpc]

theorem step_peer (s : Relay) (i : Nat) (pc : PeerPC) (a : PeerAct)
    (halive : s.panicked = false) (hpc : s.peers[i]? = some pc) :
    step s (.peer i a) = peerListener s i pc a := by
  unfold step
  simp only [halive, Bool.false_eq_true, if_false, hpc]

/-! ### The target worker -/

/-- A returned target worker stays returned. -/
theorem done_step (s s1 : Relay) (e : Event) (j : Nat) (hd : s.targets[j]? = some .done)
    (h : step s e = some s1) : s1.targets[j]? = some .done := by
  have key : ∀ (k : Nat) (pc pc1 : TargetPC), s.targets[k]? = some pc → pc ≠ .done →
      (s.targets.set k pc1)[j]? = some .done := by
    intro k pc pc1 hk hne
    have hkj : k ≠ j := by
      intro hkj
      subst hkj
      rw [hk] at hd
      cases hd
      exact hne rfl
    rw [List.getElem?_set_ne hkj]
    exact hd
  cases step_sound s s1 e h with
  | accept lead =>
    have hlt : j < s.targets.length := (List.getElem?_eq_some.1 hd).1
    unfold main
    split
    · exact hd
    · split
      · simp only
        rw [List.getElem?_append_left hlt]
        exact hd
      · exact hd
      · exact hd
  | targetListen k ok hk => exact key k _ _ hk (by simp)
  | targetDequeue k c rest hk hq => exact key k _ _ hk (by simp)
  | targetSend k c hk => exact key k _ _ hk (by simp)
  | targetSendFail k c hk =>
    simp only [setTarget_targets, close_targets]
    exact key k _ _ hk (by simp)
  | targetReceiveFail k c hk =>
    simp only [setTarget_targets, close_targets]
    exact key k _ _ hk (by simp)
  | targetShutdown k c m hk hm =>
    simp only [setTarget_targets, close_targets]
    exact key k _ _ hk (by simp)
  | targetKex k c m hk hm => exact key k _ _ hk (by simp)
  | targetNormal k c m hk hm => exact key k _ _ hk (by simp)
  | targetRespondClosed k c v hk hcl => exact hd
  | handoff k i c c1 v hk hi hcc hcl =>
    simp only [setPeer_targets, setTarget_targets, sendOn_targets]
    exact key k _ _ hk (by simp)
  | _ => simpa using hd

theorem done_run (es : List Event) (s s1 : Relay) (j : Nat)
    (hd : s.targets[j]? = some .done) (h : run s es = some s1) :
    s1.targets[j]? = some .done := by
  induction es generalizing s with
  | nil =>
    simp only [run, Option.some.injEq] at h
    subst h
    exact hd
  | cons e es ih =>
    simp only [run] at h
    cases hs : step s e with
    | none => simp [hs] at h
    | some s2 =>
      simp only [hs, Option.some_bind] at h
      exact ih s2 (done_step s s2 e j hd hs) h

/-- A target worker that closes the reply channel of the command it holds and returns. -/
theorem target_abort (s s0 : Relay) (hinv : Inv s) (j : Nat) (pc : TargetPC) (c : command)
    (hpc : s.targets[j]? = some pc) (hc : pc.cmd = some c)
    (h0 : s0.chans = s.chans ∧ s0.targets = s.targets ∧ s0.targetChan = s.targetChan ∧
      s0.panicked = s.panicked ∧ s0.peers = s.peers) :
    ((s0.close Closer.target c.Respond).setTarget j .done).chans[c.Respond]? =
        some (Chan.mk [ChanOp.close Closer.target]) ∧
      ((s0.close Closer.target c.Respond).setTarget j .done).targets[j]? = some .done ∧
      ((s0.close Closer.target c.Respond).setTarget j .done).targetChan = s.targetChan ∧
      ((s0.close Closer.target c.Respond).setTarget j .done).peers = s.peers ∧
      ((s0.close Closer.target c.Respond).setTarget j .done).panicked = false := by
  obtain ⟨hch, hcl, -⟩ := held_fresh s hinv j pc c hpc hc
  obtain ⟨e1, e2, e3, e4, e5⟩ := h0
  have hch0 : s0.chans[c.Respond]? = some (Chan.mk []) := by rw [e1]; exact hch
  obtain ⟨h1, h2⟩ := close_open s0 Closer.target c.Respond (Chan.mk []) hch0 rfl
  refine ⟨?_, ?_, ?_, ?_, ?_⟩
  · simp only [setTarget_chans, h1]
    exact getElem?_set_self_of_some _ _ _ _ hch0
  · simp only [setTarget_targets, close_targets, e2]
    exact getElem?_set_self_of_some _ _ _ _ hpc
  · simp only [setTarget_targetChan, close_targetChan, e3]
  · simp only [setTarget_peers, close_peers, e5]
  · simp only [setTarget_panicked, h2, e4]
    exact hinv.alive

/-- C3. When sending the CmdLine of a dequeued command fails, or receiving the reply fails,
or the reply is a Shutdown message, the target worker closes the reply slot of the command,
to which no value was written, and returns: it stays returned in every later state, no event
of it is enabled any more, and the command queue is as it was. -/
theorem target_failure_closes_slot (s : Relay) (hs : Reachable s) (j : Nat) (c : command)
    (pc : TargetPC) (a : TargetAct) (hpc : s.targets[j]? = some pc)
    (hfail : (pc = .send c ∧ a = .send false) ∨
      (pc = .receive c ∧ (a = .receive none ∨
        ∃ x, a = .receive (some ⟨MessageType.ShutdownMessage, x⟩)))) :
    ∃ s1, step s (.target j a) = some s1 ∧
      s1.chans[c.Respond]? = some (Chan.mk [ChanOp.close Closer.target]) ∧
      s1.targets[j]? = some .done ∧ s1.targetChan = s.targetChan ∧ s1.panicked = false ∧
      (∀ es s2, run s1 es = some s2 → s2.targets[j]? = some .done) ∧
      (∀ b, step s1 (.target j b) = none) := by
  have hinv := inv_reachable s hs
  have hfin : ∀ s1 : Relay, s1.chans[c.Respond]? = some (Chan.mk [ChanOp.close Closer.target]) ∧
      s1.targets[j]? = some .done ∧ s1.targetChan = s.targetChan ∧ s1.peers = s.peers ∧
      s1.panicked = false →
      s1.chans[c.Respond]? = some (Chan.mk [ChanOp.close Closer.target]) ∧
      s1.targets[j]? = some .done ∧ s1.targetChan = s.targetChan ∧ s1.panicked = false ∧
      (∀ es s2, run s1 es = some s2 → s2.targets[j]? = some .done) ∧
      (∀ b, step s1 (.target j b) = none) := by
    rintro s1 ⟨h1, h2, h3, -, h5⟩
    refine ⟨h1, h2, h3, h5, fun es s2 h => done_run es s1 s2 j h2 h, fun b => ?_⟩
    unfold step
    simp only [h5, Bool.false_eq_true, if_false, h2]
    cases b <;> rfl
  rcases hfail with ⟨rfl, rfl⟩ | ⟨rfl, rfl | ⟨x, rfl⟩⟩
  · refine ⟨_, ?_, hfin _ (target_abort s { s with wire := s.wire ++
      [Sent.toTarget j c.CmdLine] } hinv j _ c hpc rfl ⟨rfl, rfl, rfl, rfl, rfl⟩)⟩
    unfold step
    simp [hinv.alive, hpc, targetListener]
  · refine ⟨_, ?_, hfin _ (target_abort s s hinv j _ c hpc rfl ⟨rfl, rfl, rfl, rfl, rfl⟩)⟩
    unfold step
    simp [hinv.alive, hpc, targetListener]
  · refine ⟨_, ?_, hfin _ (target_abort s s hinv j _ c hpc rfl ⟨rfl, rfl, rfl, rfl, rfl⟩)⟩
    unfold step
    simp [hinv.alive, hpc, targetListener]

theorem target_failure_closes_slot_witness :
    ∃ s1, step (after kexTrace) (.target 0 (.receive none)) = some s1 ∧
      s1.chans[0]? = some (Chan.mk [ChanOp.close Closer.target]) ∧
      s1.targets[0]? = some .done := by
  obtain ⟨s1, h1, h2, h3, -⟩ := target_failure_closes_slot (after kexTrace)
    ⟨kexTrace, by decide⟩ 0 ⟨[1], 0⟩ (.receive ⟨[1], 0⟩) (.receive none) (by decide)
    (Or.inr ⟨rfl, Or.inl rfl⟩)
  exact ⟨s1, h1, h2, h3⟩

/-- C4, as stated, fails: after a KeyExchange message in reply to the command of peer 0,
the target worker is back at receiving the reply for that command, the command of peer 1
is still in the queue, and the Normal message that follows resolves the reply slot of the
command of peer 0 with its Contents. -/
theorem kex_keeps_command_in_flight :
    (after kexTrace).targets = [.receive ⟨[1], 0⟩] ∧
    (after (kexTrace ++ [.target 0 (.receive (some ⟨.KEXMessage, []⟩))])).targets =
      [.receive ⟨[1], 0⟩] ∧
    (after (kexTrace ++ [.target 0 (.receive (some ⟨.KEXMessage, []⟩))])).targetChan =
      [⟨[2], 1⟩] ∧
    (run init (kexTrace ++ [.target 0 (.receive (some ⟨.KEXMessage, []⟩)),
      .target 0 (.receive (some ⟨.NormalMessage, [9]⟩)), .handoff 0 0])).map
        (fun s => (s.chans, s.peers)) =
      some ([Chan.mk [ChanOp.send [9]], Chan.mk []],
        [.reply ⟨[1], 0⟩ [9], .await ⟨[2], 1⟩]) := by
  decide

/-- C4, amended. On a KeyExchange message in reply to a forwarded command the target worker
goes back to receiving the reply for that command: it dequeues nothing, the reply slot stays
as it was, unresolved, and a Normal message received next is the reply written to it. -/
theorem target_kex_continues (s : Relay) (hs : Reachable s) (j : Nat) (c : command)
    (x : Bytes) (hpc : s.targets[j]? = some (.receive c)) :
    ∃ s1, step s (.target j (.receive (some ⟨MessageType.KEXMessage, x⟩))) = some s1 ∧
      s1.targets[j]? = some (.receive c) ∧ s1.targetChan = s.targetChan ∧
      s1.chans = s.chans ∧ s1.chans[c.Respond]? = some (Chan.mk []) ∧
      ∀ r, ∃ s2, step s1 (.target j (.receive (some ⟨MessageType.NormalMessage, r⟩))) =
        some s2 ∧ s2.targets[j]? = some (.respond c r) := by
  have hinv := inv_reachable s hs
  have h1 : step s (.target j (.receive (some ⟨MessageType.KEXMessage, x⟩))) =
      some (s.setTarget j (.receive c)) := by
    unfold step
    simp [hinv.alive, hpc, targetListener]
  have h2 : (s.setTarget j (.receive c)).targets[j]? = some (.receive c) :=
    getElem?_set_self_of_some _ _ _ _ hpc
  refine ⟨_, h1, h2, rfl, rfl, (held_fresh s hinv j _ c hpc rfl).1, fun r => ?_⟩
  refine ⟨(s.setTarget j (.receive c)).setTarget j (.respond c r), ?_, ?_⟩
  · rw [step_target (s.setTarget j (.receive c)) j _ _ hinv.alive h2]
    rfl
  · exact getElem?_set_self_of_some _ _ _ _ h2

theorem target_kex_continues_witness :
    ∃ s1, step (after kexTrace) (.target 0 (.receive (some ⟨MessageType.KEXMessage, []⟩))) =
      some s1 ∧ s1.targets[0]? = some (.receive ⟨[1], 0⟩) := by
  obtain ⟨s1, h1, h2, -⟩ := target_kex_continues (after kexTrace) ⟨kexTrace, by decide⟩ 0
    ⟨[1], 0⟩ [] (by decide)
  exact ⟨s1, h1, h2⟩

/-! ### The reply channels -/

/-- C10. No goroutine of the relay panics on a reply channel: no reachable state is a
panicked one and no transition leads to one; a send of a target worker never finds its reply
channel closed; a peer worker that is about to close its reply channel finds it open, with
the one value it received on it; a target worker that holds a command finds its reply
channel open; two target workers never hold commands with the same reply channel. -/
theorem no_channel_panic (s : Relay) (hs : Reachable s) :
    s.panicked = false ∧
    (∀ e s1, step s e = some s1 → s1.panicked = false) ∧
    (∀ j, step s (.target j .respondClosed) = none) ∧
    (∀ (i : Nat) (c : command), s.peers[i]? = some (.closing c) →
      s.isClosed c.Respond = false ∧
        ∃ v, s.chans[c.Respond]? = some (Chan.mk [ChanOp.send v])) ∧
    (∀ (j : Nat) (pc : TargetPC) (c : command), s.targets[j]? = some pc → pc.cmd = some c →
      s.isClosed c.Respond = false) ∧
    (∀ (j k : Nat) (pc pk : TargetPC) (c d : command), j ≠ k → s.targets[j]? = some pc →
      s.targets[k]? = some pk → pc.cmd = some c → pk.cmd = some d →
      c.Respond ≠ d.Respond) := by
  have hinv := inv_reachable s hs
  refine ⟨hinv.alive, fun e s1 h => (inv_step s s1 e hinv h).alive, ?_, ?_, ?_, ?_⟩
  · intro j
    cases hst : step s (.target j .respondClosed) with
    | none => rfl
    | some s1 =>
      have h1 := (inv_step s s1 _ hinv hst).alive
      cases step_sound s s1 _ hst with
      | targetRespondClosed _ c v hk hcl => simp at h1
  · intro i c hi
    exact ⟨(closing_open s hinv i c hi).2, (closing_open s hinv i c hi).1⟩
  · intro j pc c hj hc
    exact (held_fresh s hinv j pc c hj hc).2.1
  · intro j k pc pk c d hjk hj hk hc hd heq
    have h2 := add_le_sum_map (TargetPC.held c.Respond) s.targets j k pc pk hjk hj hk
    have h1 : TargetPC.held c.Respond pc = 1 := by
      cases pc <;> simp [TargetPC.cmd] at hc <;> subst hc <;> simp [TargetPC.held, on_self]
    have h3 : TargetPC.held c.Respond pk = 1 := by
      rw [heq]
      cases pk <;> simp [TargetPC.cmd] at hd <;> subst hd <;> simp [TargetPC.held, on_self]
    have hpos : 0 < s.E c.Respond + (s.Qq c.Respond + s.Qt c.Respond) := by
      unfold Relay.Qt
      omega
    obtain ⟨c0, -, -, h4, -⟩ := Good.fresh_of_held (hinv.good c.Respond) hpos
    unfold Relay.Qt at h4
    omega

theorem no_channel_panic_witness :
    (after (roundTrip.take 9)).targets = [.respond ⟨str "echo hello", 0⟩ (str "hello\n")] ∧
      step (after (roundTrip.take 9)) (.target 0 .respondClosed) = none :=
  ⟨by decide,
    (no_channel_panic (after (roundTrip.take 9)) ⟨roundTrip.take 9, by decide⟩).2.2.1 0⟩

/-- C5, as stated, fails: in the round trip of one command the reply slot is written with the
reply and closed afterwards, by the peer worker that received the reply. -/
theorem reply_slot_closed_after_write :
    run init roundTrip = some (after roundTrip) ∧
    (after roundTrip).chans =
      [Chan.mk [ChanOp.send (str "hello\n"), ChanOp.close Closer.peer]] := by
  decide

/-- C5, amended. In every reachable state the history of each reply slot is one of: nothing
yet; one value written; closed by a target worker with no value written; one value written
and then closed by the peer worker. So at most one value is written, a slot is closed at most
once, no value is written after a close, and a target worker closes only a slot without a
value. -/
theorem reply_slot_single_resolution (s : Relay) (hs : Reachable s) (ch : Nat) (c : Chan)
    (hc : s.chans[ch]? = some c) :
    c.ops = [] ∨ (∃ v, c.ops = [ChanOp.send v]) ∨ c.ops = [ChanOp.close Closer.target] ∨
      ∃ v, c.ops = [ChanOp.send v, ChanOp.close Closer.peer] := by
  have hg := (inv_reachable s hs).good ch
  rw [hc] at hg
  simp only [Good] at hg
  rcases hg with ⟨h1, -⟩ | ⟨v, h1, -⟩ | ⟨h1, -⟩ | ⟨v, h1, -⟩
  · exact Or.inl h1
  · exact Or.inr (Or.inl ⟨v, h1⟩)
  · exact Or.inr (Or.inr (Or.inl h1))
  · exact Or.inr (Or.inr (Or.inr ⟨v, h1⟩))

theorem reply_slot_single_resolution_witness :
    ∃ v, (Chan.mk [ChanOp.send (str "hello\n")]).ops = [ChanOp.send v] := by
  rcases reply_slot_single_resolution (after (roundTrip.take 10))
    ⟨roundTrip.take 10, by decide⟩ 0 (Chan.mk [ChanOp.send (str "hello\n")]) (by decide)
    with h | h | h | ⟨v, h⟩
  · cases h
  · exact h
  · cases h
  · cases h

/-! ### From the peer to the target and back -/

/-- The state in which a peer worker has just made its command: the command and its channel
belong to that worker, and the invariant holds. -/
theorem create_owned (s s1 : Relay) (i : Nat) (c : Bytes) (hs : Reachable s)
    (h : step s (.peer i (.receive (some ⟨MessageType.NormalMessage, c⟩))) = some s1) :
    s1.peers[i]? = some (.enqueue ⟨c, s.chans.length⟩) ∧
      Owned i ⟨c, s.chans.length⟩ s1 ∧ Reachable s1 := by
  have hinv := inv_reachable s hs
  have hr := reachable_step s s1 _ hs h
  cases step_sound s s1 _ h with
  | peerShutdown _ m hpc hm => simp at hm
  | peerKex _ m hpc hm => simp at hm
  | peerNormal _ m hpc hm =>
    exact ⟨getElem?_set_self_of_some _ _ _ _ hpc, owned_create s hinv i c, hr⟩

/-- The rendezvous on the reply slot of a command: the target worker that offers a reply on
it meets the peer worker that made the command, and no other. -/
theorem handoff_owner (t : Relay) (i j : Nat) (C : command) (r : Bytes) (hinv : Inv t)
    (hown : Owned i C t) (hj : t.targets[j]? = some (.respond C r)) :
    t.peers[i]? = some (.await C) ∧
      step t (.handoff j i) =
        some (((t.sendOn C.Respond r).setTarget j .dequeue).setPeer i (.reply C r)) ∧
      (((t.sendOn C.Respond r).setTarget j .dequeue).setPeer i (.reply C r)).chans[C.Respond]? =
        some (Chan.mk [ChanOp.send r]) ∧
      ∀ k, k ≠ i → step t (.handoff j k) = none := by
  obtain ⟨hfresh, hopen, hA⟩ := held_fresh t hinv j _ _ hj rfl
  obtain ⟨k, c1, hk, hc1⟩ := exists_await t _ (by rw [hA]; exact Nat.one_pos)
  obtain ⟨hki, hc1C⟩ := hown.peers k _ c1 hk rfl hc1
  subst hki hc1C
  refine ⟨hk, ?_, ?_, ?_⟩
  · unfold step
    simp only [hinv.alive, Bool.false_eq_true, if_false, hj, hk]
    simp [hopen]
  · simp only [setPeer_chans, setTarget_chans]
    rw [sendOn_chans t _ r _ hfresh]
    exact getElem?_set_self_of_some _ _ _ _ hfresh
  · intro k1 hne
    cases hst : step t (.handoff j k1) with
    | none => rfl
    | some t1 =>
      exfalso
      cases step_sound t t1 _ hst with
      | handoff _ _ c2 c3 v hj2 hi2 hcc hcl =>
        rw [hj] at hj2
        simp only [Option.some.injEq, TargetPC.respond.injEq] at hj2
        obtain ⟨hc2, -⟩ := hj2
        subst hc2
        exact hne (hown.peers k1 _ c3 hi2 rfl hcc.symm).1

/-- The whole way of a command, once it is at the head of the queue in front of a target
worker that is ready to dequeue: dequeue, send to the target, Normal reply `r`, rendezvous
with the peer worker that made the command, send to the peer, close of the reply slot. -/
theorem happy_path (t : Relay) (i j : Nat) (C : command) (r : Bytes)
    (rest : List command) (hinv : Inv t) (hown : Owned i C t)
    (hj : t.targets[j]? = some .dequeue) (hq : t.targetChan = C :: rest) :
    ∃ t6, run t [.target j .dequeue, .target j (.send true),
        .target j (.receive (some ⟨MessageType.NormalMessage, r⟩)), .handoff j i,
        .peer i (.reply true), .peer i .close] = some t6 ∧
      t6.wire = t.wire ++ [Sent.toTarget j C.CmdLine, Sent.toPeer i r] ∧
      t6.chans[C.Respond]? = some (Chan.mk [ChanOp.send r, ChanOp.close Closer.peer]) ∧
      t6.peers[i]? = some .receive ∧ t6.targets[j]? = some .dequeue ∧
      t6.targetChan = rest := by
  -- dequeue
  obtain ⟨t1, e1, j1, w1, q1⟩ : ∃ t1, step t (.target j .dequeue) = some t1 ∧
      t1.targets[j]? = some (.send C) ∧ t1.wire = t.wire ∧ t1.targetChan = rest := by
    refine ⟨{ t with targetChan := rest }.setTarget j (.send C), ?_,
      getElem?_set_self_of_some _ _ _ _ hj, rfl, rfl⟩
    rw [step_target t j _ _ hinv.alive hj]
    simp only [targetListener, hq]
  have i1 := inv_step _ _ _ hinv e1
  have o1 := owned_step _ _ _ hown e1
  -- send
  obtain ⟨t2, e2, j2, w2, q2⟩ : ∃ t2, step t1 (.target j (.send true)) = some t2 ∧
      t2.targets[j]? = some (.receive C) ∧
      t2.wire = t1.wire ++ [Sent.toTarget j C.CmdLine] ∧ t2.targetChan = t1.targetChan := by
    refine ⟨{ t1 with wire := t1.wire ++ [Sent.toTarget j C.CmdLine] }.setTarget j
      (.receive C), ?_, getElem?_set_self_of_some _ _ _ _ j1, rfl, rfl⟩
    rw [step_target t1 j _ _ i1.alive j1]
    simp only [targetListener, if_true]
  have i2 := inv_step _ _ _ i1 e2
  have o2 := owned_step _ _ _ o1 e2
  -- receive
  obtain ⟨t3, e3, j3, w3, q3⟩ : ∃ t3,
      step t2 (.target j (.receive (some ⟨MessageType.NormalMessage, r⟩))) = some t3 ∧
      t3.targets[j]? = some (.respond C r) ∧ t3.wire = t2.wire ∧
      t3.targetChan = t2.targetChan := by
    refine ⟨t2.setTarget j (.respond C r), ?_, getElem?_set_self_of_some _ _ _ _ j2, rfl, rfl⟩
    rw [step_target t2 j _ _ i2.alive j2]
    simp only [targetListener]
  have i3 := inv_step _ _ _ i2 e3
  have o3 := owned_step _ _ _ o2 e3
  -- rendezvous
  obtain ⟨p3, e4, c4, -⟩ := handoff_owner t3 i j C r i3 o3 j3
  obtain ⟨t4, e4, p4, j4, w4, q4⟩ : ∃ t4, step t3 (.handoff j i) = some t4 ∧
      t4.peers[i]? = some (.reply C r) ∧ t4.targets[j]? = some .dequeue ∧
      t4.wire = t3.wire ∧ t4.targetChan = t3.targetChan := by
    refine ⟨_, e4, ?_, ?_, ?_, ?_⟩
    · simp only [setPeer_peers, setTarget_peers, sendOn_peers]
      exact getElem?_set_self_of_some _ _ _ _ p3
    · simp only [setPeer_targets, setTarget_targets, sendOn_targets]
      exact getElem?_set_self_of_some _ _ _ _ j3
    · simp only [setPeer_wire, setTarget_wire, sendOn_wire]
    · simp only [setPeer_targetChan, setTarget_targetChan, sendOn_targetChan]
  have i4 := inv_step _ _ _ i3 e4
  have c4 := reply_sent t4 i4 i C r p4
  -- reply
  obtain ⟨t5, e5, p5, j5, w5, q5, c5⟩ : ∃ t5, step t4 (.peer i (.reply true)) = some t5 ∧
      t5.peers[i]? = some (.closing C) ∧ t5.targets[j]? = some .dequeue ∧
      t5.wire = t4.wire ++ [Sent.toPeer i r] ∧ t5.targetChan = t4.targetChan ∧
      t5.chans[C.Respond]? = some (Chan.mk [ChanOp.send r]) := by
    refine ⟨{ t4 with wire := t4.wire ++ [Sent.toPeer i r] }.setPeer i (.closing C), ?_,
      getElem?_set_self_of_some _ _ _ _ p4, j4, rfl, rfl, c4⟩
    rw [step_peer t4 i _ _ i4.alive p4]
    simp only [peerListener, if_true]
  have i5 := inv_step _ _ _ i4 e5
  -- close
  obtain ⟨t6, e6, p6, j6, w6, q6, c6⟩ : ∃ t6, step t5 (.peer i .close) = some t6 ∧
      t6.peers[i]? = some .receive ∧ t6.targets[j]? = some .dequeue ∧
      t6.wire = t5.wire ∧ t6.targetChan = t5.targetChan ∧
      t6.chans[C.Respond]? =
        some (Chan.mk [ChanOp.send r, ChanOp.close Closer.peer]) := by
    obtain ⟨h6, -⟩ := close_open t5 Closer.peer C.Respond _ c5 rfl
    refine ⟨(t5.close Closer.peer C.Respond).setPeer i .receive, ?_, ?_, ?_, ?_, ?_, ?_⟩
    · rw [step_peer t5 i _ _ i5.alive p5]
      simp only [peerListener]
    · simp only [setPeer_peers, close_peers]
      exact getElem?_set_self_of_some _ _ _ _ p5
    · simp only [setPeer_targets, close_targets]
      exact j5
    · simp only [setPeer_wire, close_wire]
    · simp only [setPeer_targetChan, close_targetChan]
    · simp only [setPeer_chans, h6]
      exact getElem?_set_self_of_some _ _ _ _ c5
  refine ⟨t6, ?_, ?_, c6, p6, j6, ?_⟩
  · simp only [run, e1, e2, e3, e4, e5, e6, Option.some_bind]
  · rw [w6, w5, w4, w3, w2, w1]
    simp
  · rw [q6, q5, q4, q3, q2, q1]

/-- C1. A command that a peer worker makes from a Normal message with Contents `c` reaches
the target unchanged and its reply comes back to that peer worker unchanged. In every later
state: the peer worker that is about to enqueue a command on the reply slot of this one is
the one that made it, and its enqueue puts the command itself at the back of the queue; a
target worker that dequeues it is next about to send it; its send passes exactly `c` to
`sch.Send` and, when that succeeds, it is next receiving the reply for that command; a
KeyExchange message leaves it there and a Normal reply `r` is next offered on the reply
slot; the slot hands `r` to the peer worker that made the command, and to no other; a peer
worker that took a reply `out` from the slot is that peer worker, the slot carried exactly
`out`, and `out` is what it passes to `sch.Send`. From the head of the queue the whole way
runs: the wire gets `c` to the target and then `r` to the peer, and nothing else. -/
theorem relay_verbatim (s s1 s2 : Relay) (i : Nat) (c : Bytes) (es : List Event)
    (hs : Reachable s)
    (hcreate : step s (.peer i (.receive (some ⟨MessageType.NormalMessage, c⟩))) = some s1)
    (hrun : run s1 es = some s2) :
    s1.peers[i]? = some (.enqueue ⟨c, s.chans.length⟩) ∧
    (∀ (j : Nat) (cmd : command), s2.targets[j]? = some (.send cmd) →
      cmd.Respond = s.chans.length →
      ∀ ok, ∃ s3, step s2 (.target j (.send ok)) = some s3 ∧
        s3.wire = s2.wire ++ [Sent.toTarget j c]) ∧
    (∀ (j : Nat) (cmd : command) (r : Bytes), s2.targets[j]? = some (.receive cmd) →
      cmd.Respond = s.chans.length →
      ∃ s3, step s2 (.target j (.receive (some ⟨MessageType.NormalMessage, r⟩))) = some s3 ∧
        s3.targets[j]? = some (.respond ⟨c, s.chans.length⟩ r)) ∧
    (∀ (j : Nat) (cmd : command) (r : Bytes), s2.targets[j]? = some (.respond cmd r) →
      cmd.Respond = s.chans.length →
      (∃ s3, step s2 (.handoff j i) = some s3 ∧
        s3.peers[i]? = some (.reply ⟨c, s.chans.length⟩ r) ∧
        s3.chans[s.chans.length]? = some (Chan.mk [ChanOp.send r])) ∧
      ∀ k, k ≠ i → step s2 (.handoff j k) = none) ∧
    (∀ (k : Nat) (cmd : command) (out : Bytes), s2.peers[k]? = some (.reply cmd out) →
      cmd.Respond = s.chans.length →
      k = i ∧ cmd = ⟨c, s.chans.length⟩ ∧
      s2.chans[s.chans.length]? = some (Chan.mk [ChanOp.send out]) ∧
      ∀ ok, ∃ s3, step s2 (.peer i (.reply ok)) = some s3 ∧
        s3.wire = s2.wire ++ [Sent.toPeer i out]) ∧
    (∀ (k : Nat) (cmd : command), s2.peers[k]? = some (.enqueue cmd) →
      cmd.Respond = s.chans.length →
      k = i ∧ cmd = ⟨c, s.chans.length⟩ ∧
      (s2.targetChan.length < 4 → step s2 (.peer i .enqueue) =
        some ({ s2 with targetChan := s2.targetChan ++
            [command.mk c s.chans.length] }.setPeer i
          (.await ⟨c, s.chans.length⟩)))) ∧
    (∀ (j : Nat) (cmd : command) (rest : List command), s2.targets[j]? = some .dequeue →
      s2.targetChan = cmd :: rest → cmd.Respond = s.chans.length →
      step s2 (.target j .dequeue) =
        some ({ s2 with targetChan := rest }.setTarget j (.send ⟨c, s.chans.length⟩))) ∧
    (∀ (j : Nat) (cmd : command), s2.targets[j]? = some (.send cmd) →
      cmd.Respond = s.chans.length →
      step s2 (.target j (.send true)) =
        some ({ s2 with wire := s2.wire ++ [Sent.toTarget j c] }.setTarget j
          (.receive ⟨c, s.chans.length⟩))) ∧
    (∀ (j : Nat) (cmd : command) (x : Bytes), s2.targets[j]? = some (.receive cmd) →
      cmd.Respond = s.chans.length →
      step s2 (.target j (.receive (some ⟨MessageType.KEXMessage, x⟩))) =
        some (s2.setTarget j (.receive ⟨c, s.chans.length⟩)) ∧
      step s2 (.target j (.receive (some ⟨MessageType.NormalMessage, x⟩))) =
        some (s2.setTarget j (.respond ⟨c, s.chans.length⟩ x))) ∧
    (∀ (j : Nat) (cmd : command) (r : Bytes), s2.targets[j]? = some (.respond cmd r) →
      cmd.Respond = s.chans.length →
      s2.peers[i]? = some (.await ⟨c, s.chans.length⟩) ∧
      step s2 (.handoff j i) =
        some (((s2.sendOn s.chans.length r).setTarget j .dequeue).setPeer i
          (.reply ⟨c, s.chans.length⟩ r))) ∧
    (∀ (k : Nat) (cmd : command) (out : Bytes) (ok : Bool),
      s2.peers[k]? = some (.reply cmd out) → cmd.Respond = s.chans.length →
      step s2 (.peer i (.reply ok)) =
        some ({ s2 with wire := s2.wire ++ [Sent.toPeer i out] }.setPeer i
          (if ok then .closing ⟨c, s.chans.length⟩ else .done))) ∧
    (∀ (j : Nat) (cmd : command) (rest : List command) (r : Bytes),
      s2.targets[j]? = some .dequeue → s2.targetChan = cmd :: rest →
      cmd.Respond = s.chans.length →
      ∃ s3, run s2 [.target j .dequeue, .target j (.send true),
          .target j (.receive (some ⟨MessageType.NormalMessage, r⟩)), .handoff j i,
          .peer i (.reply true), .peer i .close] = some s3 ∧
        s3.wire = s2.wire ++ [Sent.toTarget j c, Sent.toPeer i r] ∧
        s3.chans[s.chans.length]? =
          some (Chan.mk [ChanOp.send r, ChanOp.close Closer.peer]) ∧
        s3.peers[i]? = some .receive ∧ s3.targets[j]? = some .dequeue ∧
        s3.targetChan = rest) := by
  obtain ⟨h1, hown1, hr1⟩ := create_owned s s1 i c hs hcreate
  have hown := owned_run es s1 s2 hown1 hrun
  have hr2 := reachable_run s1 s2 es hr1 hrun
  have hinv := inv_reachable s2 hr2
  refine ⟨h1, ?_, ?_, ?_, ?_, ?_, ?_, ?_, ?_, ?_, ?_, ?_⟩
  · intro j cmd hj hch ok
    have hcmd := hown.targets j _ cmd hj rfl hch
    subst hcmd
    rw [step_target s2 j _ _ hinv.alive hj]
    cases ok with
    | true => exact ⟨_, rfl, rfl⟩
    | false =>
      refine ⟨_, rfl, ?_⟩
      simp only [setTarget_wire, close_wire]
  · intro j cmd r hj hch
    have hcmd := hown.targets j _ cmd hj rfl hch
    subst hcmd
    rw [step_target s2 j _ _ hinv.alive hj]
    exact ⟨_, rfl, getElem?_set_self_of_some _ _ _ _ hj⟩
  · intro j cmd r hj hch
    have hcmd := hown.targets j _ cmd hj rfl hch
    subst hcmd
    obtain ⟨hp, hst, hc, hno⟩ := handoff_owner s2 i j _ r hinv hown hj
    refine ⟨⟨_, hst, ?_, hc⟩, hno⟩
    simp only [setPeer_peers, setTarget_peers, sendOn_peers]
    exact getElem?_set_self_of_some _ _ _ _ hp
  · intro k cmd out hk hch
    obtain ⟨hki, hcmd⟩ := hown.peers k _ cmd hk rfl hch
    subst hki hcmd
    refine ⟨rfl, rfl, reply_sent s2 hinv k _ out hk, fun ok => ?_⟩
    rw [step_peer s2 k _ _ hinv.alive hk]
    exact ⟨_, rfl, rfl⟩
  · intro k cmd hk hch
    obtain ⟨hki, hcmd⟩ := hown.peers k _ cmd hk rfl hch
    subst hki hcmd
    refine ⟨rfl, rfl, fun hlt => ?_⟩
    rw [step_peer s2 k _ _ hinv.alive hk]
    have hlt1 : s2.targetChan.length < targetChanCap := hlt
    simp only [peerListener, hlt1, if_true]
  · intro j cmd rest hj hq hch
    have hcmd := hown.queue cmd (by rw [hq]; exact List.mem_cons_self _ _) hch
    subst hcmd
    rw [step_target s2 j _ _ hinv.alive hj]
    simp only [targetListener, hq]
  · intro j cmd hj hch
    have hcmd := hown.targets j _ cmd hj rfl hch
    subst hcmd
    rw [step_target s2 j _ _ hinv.alive hj]
    simp only [targetListener, if_true]
  · intro j cmd x hj hch
    have hcmd := hown.targets j _ cmd hj rfl hch
    subst hcmd
    rw [step_target s2 j _ _ hinv.alive hj, step_target s2 j _ _ hinv.alive hj]
    simp only [targetListener, and_self]
  · intro j cmd r hj hch
    have hcmd := hown.targets j _ cmd hj rfl hch
    subst hcmd
    obtain ⟨hp, hst, -, -⟩ := handoff_owner s2 i j _ r hinv hown hj
    exact ⟨hp, hst⟩
  · intro k cmd out ok hk hch
    obtain ⟨hki, hcmd⟩ := hown.peers k _ cmd hk rfl hch
    subst hki hcmd
    rw [step_peer s2 k _ _ hinv.alive hk]
    simp only [peerListener]
  · intro j cmd rest r hj hq hch
    have hcmd := hown.queue cmd (by rw [hq]; exact List.mem_cons_self _ _) hch
    subst hcmd
    exact happy_path s2 i j _ r rest hinv hown hj hq

theorem relay_verbatim_witness :
    (∃ s3, step (after (roundTrip.take 7)) (.target 0 (.send true)) = some s3 ∧
      s3.wire = (after (roundTrip.take 7)).wire ++ [Sent.toTarget 0 (str "echo hello")]) ∧
    (∃ s3, run (after (roundTrip.take 6)) [.target 0 .dequeue, .target 0 (.send true),
        .target 0 (.receive (some ⟨MessageType.NormalMessage, str "hello\n"⟩)), .handoff 0 0,
        .peer 0 (.reply true), .peer 0 .close] = some s3 ∧
      s3.wire = (after (roundTrip.take 6)).wire ++
        [Sent.toTarget 0 (str "echo hello"), Sent.toPeer 0 (str "hello\n")]) ∧
    (after roundTrip).wire =
      [Sent.toTarget 0 (str "echo hello"), Sent.toPeer 0 (str "hello\n")] := by
  refine ⟨?_, ?_, by decide⟩
  · exact (relay_verbatim (after (roundTrip.take 4)) (after (roundTrip.take 5))
      (after (roundTrip.take 7)) 0 (str "echo hello") [.peer 0 .enqueue, .target 0 .dequeue]
      ⟨roundTrip.take 4, by decide⟩ (by decide) (by decide)).2.1 0 ⟨str "echo hello", 0⟩
      (by decide) (by decide) true
  · obtain ⟨s3, h1, h2, -⟩ := (relay_verbatim (after (roundTrip.take 4))
      (after (roundTrip.take 5)) (after (roundTrip.take 6)) 0 (str "echo hello")
      [.peer 0 .enqueue] ⟨roundTrip.take 4, by decide⟩ (by decide)
      (by decide)).2.2.2.2.2.2.2.2.2.2.2 0 ⟨str "echo hello", 0⟩ [] (str "hello\n")
      (by decide) (by decide) (by decide)
    exact ⟨s3, h1, h2⟩

/-! ### A target worker that returns -/

/-- With every target worker returned and no new connection, a peer worker that waits on an
unresolved reply slot keeps waiting, the slot stays unresolved and its command stays in the
queue. -/
theorem stuck_step (s s1 : Relay) (e : Event) (i : Nat) (c : command) (hinv : Inv s)
    (hacc : ∀ lead, e ≠ .accept lead)
    (hdone : ∀ (j : Nat) (pc : TargetPC), s.targets[j]? = some pc → pc = .done)
    (hi : s.peers[i]? = some (.await c)) (hch : s.chans[c.Respond]? = some (Chan.mk []))
    (hq : c ∈ s.targetChan) (h : step s e = some s1) :
    (∀ (j : Nat) (pc : TargetPC), s1.targets[j]? = some pc → pc = .done) ∧
      s1.peers[i]? = some (.await c) ∧ s1.chans[c.Respond]? = some (Chan.mk []) ∧
      c ∈ s1.targetChan := by
  have key : ∀ (k : Nat) (pc pc1 : PeerPC), s.peers[k]? = some pc → pc ≠ .await c →
      (s.peers.set k pc1)[i]? = some (.await c) := by
    intro k pc pc1 hk hne
    have hki : k ≠ i := by
      intro hki
      subst hki
      rw [hk] at hi
      cases hi
      exact hne rfl
    rw [List.getElem?_set_ne hki]
    exact hi
  cases step_sound s s1 e h with
  | accept lead => exact absurd rfl (hacc lead)
  | peerListen k ok hk => exact ⟨hdone, key k _ _ hk (by simp), hch, hq⟩
  | peerReceiveFail k hk => exact ⟨hdone, key k _ _ hk (by simp), hch, hq⟩
  | peerShutdown k m hk hm => exact ⟨hdone, key k _ _ hk (by simp), hch, hq⟩
  | peerKex k m hk hm => exact ⟨hdone, key k _ _ hk (by simp), hch, hq⟩
  | peerNormal k m hk hm =>
    refine ⟨hdone, key k _ _ hk (by simp), ?_, hq⟩
    have hlt : c.Respond < s.chans.length := (List.getElem?_eq_some.1 hch).1
    simp only [setPeer_chans]
    rw [List.getElem?_append_left hlt]
    exact hch
  | peerEnqueue k c1 hk hlt =>
    refine ⟨hdone, key k _ _ hk (by simp), hch, ?_⟩
    simp only [setPeer_targetChan, List.mem_append]
    exact Or.inl hq
  | peerAwaitClosed k c1 hk hcl =>
    refine ⟨hdone, key k _ _ hk ?_, hch, hq⟩
    intro heq
    simp only [PeerPC.await.injEq] at heq
    subst heq
    unfold Relay.isClosed at hcl
    rw [hch] at hcl
    simp [Chan.closed] at hcl
  | peerReply k c1 out ok hk => exact ⟨hdone, key k _ _ hk (by simp), hch, hq⟩
  | peerClose k c1 hk =>
    obtain ⟨⟨v, hv⟩, hopen⟩ := closing_open s hinv k c1 hk
    have hne : c1.Respond ≠ c.Respond := by
      intro heq
      rw [heq, hch] at hv
      simp at hv
    obtain ⟨h1, -⟩ := close_open s Closer.peer c1.Respond _ hv rfl
    refine ⟨by simpa using hdone, ?_, ?_, by simpa using hq⟩
    · simp only [setPeer_peers, close_peers]
      exact key k _ _ hk (by simp)
    · simp only [setPeer_chans, h1]
      rw [List.getElem?_set_ne hne]
      exact hch
  | targetListen k ok hk => exact absurd (hdone k _ hk) (by simp)
  | targetDequeue k c1 rest hk hq1 => exact absurd (hdone k _ hk) (by simp)
  | targetSend k c1 hk => exact absurd (hdone k _ hk) (by simp)
  | targetSendFail k c1 hk => exact absurd (hdone k _ hk) (by simp)
  | targetReceiveFail k c1 hk => exact absurd (hdone k _ hk) (by simp)
  | targetShutdown k c1 m hk hm => exact absurd (hdone k _ hk) (by simp)
  | targetKex k c1 m hk hm => exact absurd (hdone k _ hk) (by simp)
  | targetNormal k c1 m hk hm => exact absurd (hdone k _ hk) (by simp)
  | targetRespondClosed k c1 v hk hcl => exact absurd (hdone k _ hk) (by simp)
  | handoff k i1 c1 c2 v hk hi1 hcc hcl => exact absurd (hdone k _ hk) (by simp)

theorem stuck_run (es : List Event) (s s1 : Relay) (i : Nat) (c : command) (hinv : Inv s)
    (hacc : ∀ e ∈ es, ∀ lead, e ≠ .accept lead)
    (hdone : ∀ (j : Nat) (pc : TargetPC), s.targets[j]? = some pc → pc = .done)
    (hi : s.peers[i]? = some (.await c)) (hch : s.chans[c.Respond]? = some (Chan.mk []))
    (hq : c ∈ s.targetChan) (h : run s es = some s1) :
    s1.peers[i]? = some (.await c) ∧ s1.chans[c.Respond]? = some (Chan.mk []) ∧
      c ∈ s1.targetChan := by
  induction es generalizing s with
  | nil =>
    simp only [run, Option.some.injEq] at h
    subst h
    exact ⟨hi, hch, hq⟩
  | cons e es ih =>
    simp only [run] at h
    cases hs : step s e with
    | none => simp [hs] at h
    | some s2 =>
      simp only [hs, Option.some_bind] at h
      obtain ⟨h1, h2, h3, h4⟩ := stuck_step s s2 e i c hinv
        (hacc e (List.mem_cons_self _ _)) hdone hi hch hq hs
      exact ih s2 (inv_step s s2 e hinv hs)
        (fun e1 he1 => hacc e1 (List.mem_cons_of_mem _ he1)) h1 h2 h3 h4 h

/-- C8, as stated, fails for a queued command: the target worker returns after a failed send
of the command of peer 0, and the command of peer 1 is still in the queue with its reply slot
unresolved; as long as no new connection is accepted, peer worker 1 keeps waiting on that
slot, which stays unresolved. -/
theorem queued_command_left_unresolved :
    (after abortTrace).targets = [.done] ∧
    (after abortTrace).targetChan = [⟨[2], 1⟩] ∧
    (after abortTrace).chans = [Chan.mk [ChanOp.close Closer.target], Chan.mk []] ∧
    (after abortTrace).peers = [.await ⟨[1], 0⟩, .await ⟨[2], 1⟩] ∧
    ∀ (es : List Event) (s1 : Relay), (∀ e ∈ es, ∀ lead, e ≠ .accept lead) →
      run (after abortTrace) es = some s1 →
      s1.peers[1]? = some (.await ⟨[2], 1⟩) ∧ s1.chans[1]? = some (Chan.mk []) ∧
        (⟨[2], 1⟩ : command) ∈ s1.targetChan := by
  refine ⟨by decide, by decide, by decide, by decide, fun es s1 hacc h => ?_⟩
  have hinv : Inv (after abortTrace) := inv_reachable _ ⟨abortTrace, by decide⟩
  refine stuck_run es (after abortTrace) s1 1 ⟨[2], 1⟩ hinv hacc ?_ (by decide) (by decide)
    (by decide) h
  intro j pc hj
  have ht : (after abortTrace).targets = [.done] := by decide
  rw [ht] at hj
  cases j with
  | zero =>
    simp at hj
    exact hj.symm
  | succ n => simp at hj

/-- C8, amended. When a target worker returns on a failed send, a failed receive or a
Shutdown reply while it holds the command that peer worker `i` made, the reply slot of that
command is closed without a value and peer worker `i`, which waits on the slot, sees the
close and returns. The command queue is left as it is: the reply slot of every command in
it stays unresolved. -/
theorem target_exit_resolves_in_flight (s s1 s2 : Relay) (i : Nat) (c : Bytes)
    (es : List Event) (j : Nat) (pc : TargetPC) (a : TargetAct) (hs : Reachable s)
    (hcreate : step s (.peer i (.receive (some ⟨MessageType.NormalMessage, c⟩))) = some s1)
    (hrun : run s1 es = some s2) (hpc : s2.targets[j]? = some pc)
    (hfail : (pc = .send ⟨c, s.chans.length⟩ ∧ a = .send false) ∨
      (pc = .receive ⟨c, s.chans.length⟩ ∧ (a = .receive none ∨
        ∃ x, a = .receive (some ⟨MessageType.ShutdownMessage, x⟩)))) :
    ∃ s3, step s2 (.target j a) = some s3 ∧ s3.targets[j]? = some .done ∧
      s3.chans[s.chans.length]? = some (Chan.mk [ChanOp.close Closer.target]) ∧
      s3.peers[i]? = some (.await ⟨c, s.chans.length⟩) ∧
      (∃ s4, step s3 (.peer i .awaitClosed) = some s4 ∧ s4.peers[i]? = some .done) ∧
      s3.targetChan = s2.targetChan ∧
      ∀ q ∈ s3.targetChan, s3.chans[q.Respond]? = some (Chan.mk []) := by
  obtain ⟨-, hown1, hr1⟩ := create_owned s s1 i c hs hcreate
  have hown := owned_run es s1 s2 hown1 hrun
  have hr2 := reachable_run s1 s2 es hr1 hrun
  have hinv := inv_reachable s2 hr2
  have hcmd : pc.cmd = some ⟨c, s.chans.length⟩ := by
    rcases hfail with ⟨rfl, -⟩ | ⟨rfl, -⟩ <;> rfl
  obtain ⟨-, -, hA⟩ := held_fresh s2 hinv j pc _ hpc hcmd
  obtain ⟨k, c1, hk, hc1⟩ := exists_await s2 _ (by rw [hA]; exact Nat.one_pos)
  obtain ⟨hki, hc1C⟩ := hown.peers k _ c1 hk rfl hc1
  subst hki hc1C
  have hfin : ∀ s0 : Relay, s0.chans = s2.chans ∧ s0.targets = s2.targets ∧
      s0.targetChan = s2.targetChan ∧ s0.panicked = s2.panicked ∧ s0.peers = s2.peers →
      step s2 (.target j a) =
        some ((s0.close Closer.target s.chans.length).setTarget j .done) →
      ∃ s3, step s2 (.target j a) = some s3 ∧ s3.targets[j]? = some .done ∧
        s3.chans[s.chans.length]? = some (Chan.mk [ChanOp.close Closer.target]) ∧
        s3.peers[k]? = some (.await ⟨c, s.chans.length⟩) ∧
        (∃ s4, step s3 (.peer k .awaitClosed) = some s4 ∧ s4.peers[k]? = some .done) ∧
        s3.targetChan = s2.targetChan ∧
        ∀ q ∈ s3.targetChan, s3.chans[q.Respond]? = some (Chan.mk []) := by
    intro s0 h0 hst
    obtain ⟨t1, t2, t3, t4, t5⟩ := target_abort s2 s0 hinv j pc ⟨c, s.chans.length⟩ hpc hcmd h0
    have hk3 : ((s0.close Closer.target s.chans.length).setTarget j .done).peers[k]? =
        some (.await ⟨c, s.chans.length⟩) := by
      rw [t4]; exact hk
    have hinv3 := inv_step s2 _ _ hinv hst
    refine ⟨_, hst, t2, t1, hk3, ?_, t3, fun q hq => (queued_fresh _ hinv3 q hq).1⟩
    have hcl : ((s0.close Closer.target s.chans.length).setTarget j .done).isClosed
        s.chans.length = true := by
      unfold Relay.isClosed
      simp only at t1
      rw [t1]
      rfl
    refine ⟨((s0.close Closer.target s.chans.length).setTarget j .done).setPeer k .done, ?_,
      getElem?_set_self_of_some _ _ _ _ hk3⟩
    rw [step_peer _ k _ _ t5 hk3]
    simp only [peerListener, hcl, if_true]
  rcases hfail with ⟨rfl, rfl⟩ | ⟨rfl, rfl | ⟨x, rfl⟩⟩
  · exact hfin { s2 with wire := s2.wire ++ [Sent.toTarget j c] } ⟨rfl, rfl, rfl, rfl, rfl⟩
      (by rw [step_target s2 j _ _ hinv.alive hpc]; rfl)
  · exact hfin s2 ⟨rfl, rfl, rfl, rfl, rfl⟩
      (by rw [step_target s2 j _ _ hinv.alive hpc]; rfl)
  · exact hfin s2 ⟨rfl, rfl, rfl, rfl, rfl⟩
      (by rw [step_target s2 j _ _ hinv.alive hpc]; rfl)

theorem target_exit_resolves_in_flight_witness :
    ∃ s3, step (after (abortTrace.take 11)) (.target 0 (.send false)) = some s3 ∧
      s3.chans[0]? = some (Chan.mk [ChanOp.close Closer.target]) ∧
      s3.peers[0]? = some (.await ⟨[1], 0⟩) ∧
      ∃ s4, step s3 (.peer 0 .awaitClosed) = some s4 ∧ s4.peers[0]? = some .done := by
  obtain ⟨s3, h1, -, h3, h4, h5, -⟩ := target_exit_resolves_in_flight
    (after (abortTrace.take 6)) (after (abortTrace.take 7)) (after (abortTrace.take 11)) 0 [1]
    [.peer 0 .enqueue, .peer 1 (.receive (some ⟨.NormalMessage, [2]⟩)), .peer 1 .enqueue,
      .target 0 .dequeue] 0 (.send ⟨[1], 0⟩) (.send false)
    ⟨abortTrace.take 6, by decide⟩ (by decide) (by decide) (by decide) (Or.inl ⟨rfl, rfl⟩)
  exact ⟨s3, h1, h3, h4, h5⟩

end Server

namespace Mshelld

/-- C7. For a Normal message whose temporary file was written and whose subprocess ran
to completion (no error, or an exit error), the daemon sends exactly one reply: the captured
output when it is not empty, the placeholder `<no output>` when it is; and whatever the
environment answers, no reply of the daemon is empty. -/
theorem daemon_reply_content (e : Env) (m : Message) (hm : e.received = some m)
    (hn : m.type = MessageType.NormalMessage) (ht : e.tempOk = true)
    (hr : e.err = none ∨ e.err = some ExecErr.exitError) :
    (e.out ≠ [] → (session e).sent = [e.out]) ∧
    (e.out = [] → (session e).sent = [str "<no output>"]) ∧
    (∃ b, (session e).sent = [b] ∧ b ≠ []) ∧
    (∀ e1 : Env, ∀ b ∈ (session e1).sent, b ≠ []) := by
  have hne : noOutput ≠ [] := by decide
  have herr : e.err ≠ some ExecErr.other := by
    rcases hr with h | h <;> rw [h] <;> simp
  have hs : (session e).sent = [if e.out.length = 0 then noOutput else e.out] := by
    unfold session
    simp [hm, hn, ht, herr]
  refine ⟨?_, ?_, ?_, ?_⟩
  · intro h
    have : e.out.length ≠ 0 := by
      intro h0
      exact h (List.length_eq_zero.1 h0)
    rw [hs]
    simp [this]
  · intro h
    rw [hs, h]
    rfl
  · refine ⟨_, hs, ?_⟩
    split
    · exact hne
    · rename_i h
      intro h0
      rw [h0] at h
      exact h rfl
  · intro e1 b hb
    unfold session at hb
    split at hb
    · simp at hb
    · split at hb
      · simp at hb
      · simp at hb
      · split at hb
        · simp at hb
        · split at hb
          · simp at hb
          · simp only [List.mem_singleton] at hb
            subst hb
            split
            · exact hne
            · rename_i h
              intro h0
              rw [h0] at h
              exact h rfl

theorem daemon_reply_content_witness :
    (session ⟨some ⟨MessageType.NormalMessage, str "true"⟩, true, [], none, true⟩).sent =
      [str "<no output>"] :=
  (daemon_reply_content ⟨some ⟨MessageType.NormalMessage, str "true"⟩, true, [], none, true⟩
    ⟨MessageType.NormalMessage, str "true"⟩ rfl rfl rfl (Or.inl rfl)).2.1 rfl

end Mshelld

namespace Mshell

/-- C9, as stated, fails: for the reply `hello` and a newline the client prints
the header, the reply, and one more newline after the final newline of the reply. -/
theorem client_prints_trailing_newline :
    (str "hello\n").length = 6 ∧
    (main ⟨MessageType.NormalMessage, str "hello\n"⟩).printed ≠ str "output:\n------\nhello\n" ∧
    (main ⟨MessageType.NormalMessage, str "hello\n"⟩).printed =
      str "output:\n------\nhello\n\n" := by
  decide

/-- C9, amended. The client prints the two header lines, then the Contents of the reply, then
one newline of its own; for the reply `hello` and a newline that is the header, `hello`, and
two newlines. -/
theorem client_output_rendering (contents : Bytes) :
    (main ⟨MessageType.NormalMessage, contents⟩).printed =
      str "output:\n------\n" ++ contents ++ str "\n" ∧
    (main ⟨MessageType.NormalMessage, contents⟩).returned = false ∧
    (main ⟨MessageType.NormalMessage, str "hello\n"⟩).printed =
      str "output:\n------\nhello\n\n" := by
  refine ⟨rfl, rfl, ?_⟩
  decide

end Mshell
